import Mathlib

/-!
Verification development for the tapyrus-signer `aggregate` setup command
(`src/cli/setup/aggregate.rs`).  The development shallowly embeds the
command's data flow: WIF private-key decoding, VSS contribution parsing,
canonical participant ordering, Feldman share verification, share/key
combination, and output formatting.  Elliptic-curve arithmetic is the
secp256k1 arithmetic used by the underlying libraries (curv /
rust-secp256k1); it is embedded with Jacobian internal coordinates and
affine normalisation, mirroring libsecp256k1.
-/

set_option maxRecDepth 100000
set_option maxHeartbeats 2000000000

namespace TS

/-! ## secp256k1 constants -/

/-- The secp256k1 base-field prime. -/
def fieldP : Nat := 115792089237316195423570985008687907853269984665640564039457584007908834671663

/-- The secp256k1 group order (scalar field modulus used by curv's `FE`). -/
def groupN : Nat := 115792089237316195423570985008687907852837564279074904382605163141518161494337

/-- Generator x-coordinate. -/
def gX : Nat := 55066263022277343669578718895168534326250603453777594175500187360389116729240

/-- Generator y-coordinate. -/
def gY : Nat := 32670510020758816978083085130507043184471273380659243275938904335757337482424

/-! ## Modular exponentiation (square-and-multiply, fuel-based) -/

/-- Square-and-multiply exponentiation modulo `m`; `fuel` bounds the number
of binary digits of the exponent. -/
def powModAux : Nat → Nat → Nat → Nat → Nat
  | 0, _, _, _ => 1
  | fuel+1, b, e, m =>
      if e = 0 then 1 % m else
      let r := powModAux fuel (b * b % m) (e / 2) m
      if e % 2 = 1 then r * b % m else r

/-- `powMod b e m = b ^ e % m` for 256-bit-sized exponents. -/
def powMod (b e m : Nat) : Nat := powModAux 257 (b % m) e m

/-- Inverse in the secp256k1 base field, computed by Fermat exponentiation
exactly as a constant-time field library does. -/
def pinv (a : Nat) : Nat := powMod a (fieldP - 2) fieldP

/-! ## Points: Jacobian internal form and affine external form -/

/-- Jacobian-coordinate point, the internal representation used by
libsecp256k1 for group arithmetic; `z = 0` encodes the point at infinity. -/
structure Jac where
  x : Nat
  y : Nat
  z : Nat
deriving DecidableEq, Repr

/-- Affine point: either the point at infinity or finite coordinates. -/
inductive Point where
  | inf
  | mk (x y : Nat)
deriving DecidableEq, Repr

/-- Jacobian doubling on secp256k1 (curve coefficient a = 0). -/
def jdouble (q : Jac) : Jac :=
  if q.z = 0 ∨ q.y = 0 then ⟨0, 1, 0⟩
  else
    let ysq := q.y * q.y % fieldP
    let s := 4 * q.x % fieldP * ysq % fieldP
    let m := 3 * q.x % fieldP * q.x % fieldP
    let x3 := (m * m % fieldP + 2 * (fieldP - s)) % fieldP
    let y3 := (m * ((s + (fieldP - x3)) % fieldP) % fieldP
               + (fieldP - 8 * (ysq * ysq % fieldP) % fieldP)) % fieldP
    let z3 := 2 * q.y % fieldP * q.z % fieldP
    ⟨x3, y3, z3⟩

/-- Jacobian addition on secp256k1. -/
def jadd (q r : Jac) : Jac :=
  if q.z = 0 then r
  else if r.z = 0 then q
  else
    let z1z1 := q.z * q.z % fieldP
    let z2z2 := r.z * r.z % fieldP
    let u1 := q.x * z2z2 % fieldP
    let u2 := r.x * z1z1 % fieldP
    let s1 := q.y * z2z2 % fieldP * r.z % fieldP
    let s2 := r.y * z1z1 % fieldP * q.z % fieldP
    if u1 = u2 then
      if s1 = s2 then jdouble q else ⟨0, 1, 0⟩
    else
      let h := (u2 + (fieldP - u1)) % fieldP
      let hh := h * h % fieldP
      let hhh := h * hh % fieldP
      let rr := (s2 + (fieldP - s1)) % fieldP
      let v := u1 * hh % fieldP
      let x3 := (rr * rr % fieldP + (fieldP - hhh) + 2 * (fieldP - v)) % fieldP
      let y3 := (rr * ((v + (fieldP - x3)) % fieldP) % fieldP
                 + (fieldP - s1 * hhh % fieldP)) % fieldP
      let z3 := h * q.z % fieldP * r.z % fieldP
      ⟨x3, y3, z3⟩

/-- Double-and-add scalar multiplication, binary recursion with fuel. -/
def jmulAux : Nat → Nat → Jac → Jac → Jac
  | 0, _, _, acc => acc
  | fuel+1, k, q, acc =>
      if k = 0 then acc
      else jmulAux fuel (k / 2) (jdouble q) (if k % 2 = 1 then jadd acc q else acc)

/-- Scalar multiplication `k · q` for 256-bit-sized scalars. -/
def jmul (k : Nat) (q : Jac) : Jac := jmulAux 257 k q ⟨0, 1, 0⟩

/-- Normalise a Jacobian point to affine form (one field inversion), as the
library does before comparing or serialising points. -/
def toAffine (q : Jac) : Point :=
  if q.z = 0 then .inf
  else
    let zi := pinv q.z
    let zi2 := zi * zi % fieldP
    .mk (q.x * zi2 % fieldP) (q.y * zi2 % fieldP * zi % fieldP)

/-- View an affine point in Jacobian coordinates. -/
def ofAffine : Point → Jac
  | .inf => ⟨0, 1, 0⟩
  | .mk x y => ⟨x, y, 1⟩

/-- The secp256k1 generator in Jacobian form. -/
def jacG : Jac := ⟨gX, gY, 1⟩

/-- Affine point addition (the curve group law as exposed by curv's `GE`). -/
def geAdd (a b : Point) : Point := toAffine (jadd (ofAffine a) (ofAffine b))

/-- Base-point scalar multiplication `k · G` in affine form. -/
def mulG (k : Nat) : Point := toAffine (jmul k jacG)

/-- General affine scalar multiplication `k · q`. -/
def mulPt (k : Nat) (q : Point) : Point := toAffine (jmul k (ofAffine q))

/-- On-curve test for affine coordinates: `y² = x³ + 7` mod `fieldP`. -/
def onCurve (x y : Nat) : Bool :=
  y * y % fieldP = (x * x % fieldP * x % fieldP + 7) % fieldP

/-! ## Bytes and hex strings -/

/-- Hex digit value of a character, `none` for a non-hex character. -/
def hexDigitVal (c : Char) : Option Nat :=
  if '0' ≤ c ∧ c ≤ '9' then some (c.toNat - '0'.toNat)
  else if 'a' ≤ c ∧ c ≤ 'f' then some (c.toNat - 'a'.toNat + 10)
  else if 'A' ≤ c ∧ c ≤ 'F' then some (c.toNat - 'A'.toNat + 10)
  else none

/-- Decode a list of hex characters (even length) into bytes. -/
def hexDecodeAux : List Char → Option (List Nat)
  | [] => some []
  | [_] => none
  | c1 :: c2 :: rest =>
      match hexDigitVal c1, hexDigitVal c2, hexDecodeAux rest with
      | some h, some l, some bs => some ((16 * h + l) :: bs)
      | _, _, _ => none

/-- Decode a hex string into bytes, as Rust's `hex::decode`. -/
def hexDecode (s : String) : Option (List Nat) := hexDecodeAux s.toList

/-- Lowercase hex characters in value order. -/
def hexChars : List Char := "0123456789abcdef".toList

/-- Lowercase hex character of a value below 16. -/
def hexChar (v : Nat) : Char := hexChars.getD v '0'

/-- Two lowercase hex characters of one byte. -/
def byteHex (b : Nat) : List Char := [hexChar (b / 16 % 16), hexChar (b % 16)]

/-- Lowercase hex string of a byte list. -/
def bytesToHex (bs : List Nat) : String := ⟨bs.flatMap byteHex⟩

/-- Hex digits (most significant first) of a natural number, accumulator
style; produces no digits for zero. -/
def natHexDigitsAux : Nat → Nat → List Char → List Char
  | 0, _, acc => acc
  | _+1, 0, acc => acc
  | fuel+1, n, acc => natHexDigitsAux fuel (n / 16) (hexChar (n % 16) :: acc)

/-- Minimal lowercase hex representation of a natural number (as curv's
`BigInt::to_hex`): no leading zeros, and `0` is rendered as a single digit. -/
def natToHex (n : Nat) : String :=
  if n = 0 then "0" else ⟨natHexDigitsAux 64 n []⟩

/-- Left-pad a string with '0' to the given width, as Rust's
format specifier `{:0>w}` does (strings already at least that wide are
unchanged). -/
def padLeftZero (w : Nat) (s : String) : String :=
  ⟨List.replicate (w - s.length) '0' ++ s.toList⟩

/-- Big-endian interpretation of a byte list. -/
def beBytesToNat (bs : List Nat) : Nat := bs.foldl (fun acc b => acc * 256 + b) 0

/-- Big-endian encoding of a natural number into exactly `len` bytes
(truncating high bytes if the value does not fit). -/
def natToBeBytes : Nat → Nat → List Nat
  | 0, _ => []
  | len+1, n => natToBeBytes len (n / 256) ++ [n % 256]

/-- Number of base-256 digits of `n` (zero for zero); `fuel` bounds the
digit count. -/
def beLenAux : Nat → Nat → Nat
  | 0, _ => 0
  | fuel+1, n => if n = 0 then 0 else beLenAux fuel (n / 256) + 1

/-- Minimal big-endian encoding of a natural number (no leading zero bytes,
empty for zero), as produced by base58 decoding of the numeric part;
`fuel` bounds the byte count. -/
def natToBeBytesMin (fuel n : Nat) : List Nat := natToBeBytes (beLenAux fuel n) n

/-! ## SHA-256 (used by the WIF base58 checksum) -/

/-- SHA-256 round constants. -/
def shaK : List Nat :=
  [1116352408, 1899447441, 3049323471, 3921009573, 961987163, 1508970993,
   2453635748, 2870763221, 3624381080, 310598401, 607225278, 1426881987,
   1925078388, 2162078206, 2614888103, 3248222580, 3835390401, 4022224774,
   264347078, 604807628, 770255983, 1249150122, 1555081692, 1996064986,
   2554220882, 2821834349, 2952996808, 3210313671, 3336571891, 3584528711,
   113926993, 338241895, 666307205, 773529912, 1294757372, 1396182291,
   1695183700, 1986661051, 2177026350, 2456956037, 2730485921, 2820302411,
   3259730800, 3345764771, 3516065817, 3600352804, 4094571909, 275423344,
   430227734, 506948616, 659060556, 883997877, 958139571, 1322822218,
   1537002063, 1747873779, 1955562222, 2024104815, 2227730452, 2361852424,
   2428436474, 2756734187, 3204031479, 3329325298]

/-- SHA-256 initial hash state. -/
def shaH0 : List Nat :=
  [1779033703, 3144134277, 1013904242, 2773480762, 1359893119, 2600822924,
   528734635, 1541459225]

/-- 32-bit word mask application. -/
def w32 (n : Nat) : Nat := n % 4294967296

/-- Right-rotate a 32-bit word by `r` places. -/
def rotr (r n : Nat) : Nat := w32 (n / 2 ^ r + n % 2 ^ r * 2 ^ (32 - r))

/-- Bitwise complement of a 32-bit word. -/
def notW (n : Nat) : Nat := Nat.xor n 4294967295

/-- Assemble big-endian 32-bit words from bytes. -/
def bytesToWords : List Nat → List Nat
  | b0 :: b1 :: b2 :: b3 :: rest =>
      (((b0 * 256 + b1) * 256 + b2) * 256 + b3) :: bytesToWords rest
  | _ => []

/-- Split a 32-bit word into four big-endian bytes. -/
def wordBytes (wd : Nat) : List Nat :=
  [wd / 16777216 % 256, wd / 65536 % 256, wd / 256 % 256, wd % 256]

/-- SHA-256 message-schedule extension from 16 words to 64 words. -/
def shaExtend : Nat → List Nat → List Nat
  | 0, ws => ws
  | fuel+1, ws =>
      let i := ws.length
      let w15 := ws.getD (i - 15) 0
      let w2 := ws.getD (i - 2) 0
      let w16 := ws.getD (i - 16) 0
      let w7 := ws.getD (i - 7) 0
      let s0 := Nat.xor (Nat.xor (rotr 7 w15) (rotr 18 w15)) (w15 / 2 ^ 3)
      let s1 := Nat.xor (Nat.xor (rotr 17 w2) (rotr 19 w2)) (w2 / 2 ^ 10)
      shaExtend fuel (ws ++ [w32 (w16 + s0 + w7 + s1)])

/-- One SHA-256 compression round. -/
def shaRound (st : List Nat) (kw : Nat × Nat) : List Nat :=
  match st with
  | [a, b, c, d, e, f, g, h] =>
      let s1 := Nat.xor (Nat.xor (rotr 6 e) (rotr 11 e)) (rotr 25 e)
      let ch := Nat.xor (Nat.land e f) (Nat.land (notW e) g)
      let t1 := w32 (h + s1 + ch + kw.1 + kw.2)
      let s0 := Nat.xor (Nat.xor (rotr 2 a) (rotr 13 a)) (rotr 22 a)
      let mj := Nat.xor (Nat.xor (Nat.land a b) (Nat.land a c)) (Nat.land b c)
      let t2 := w32 (s0 + mj)
      [w32 (t1 + t2), a, b, c, w32 (d + t1), e, f, g]
  | st => st

/-- Compress one 64-byte chunk into the running state. -/
def shaCompress (st : List Nat) (chunk : List Nat) : List Nat :=
  let ws := shaExtend 48 (bytesToWords chunk)
  let fin := (shaK.zip ws).foldl shaRound st
  (st.zip fin).map (fun ab => w32 (ab.1 + ab.2))

/-- Process the padded message chunk by chunk. -/
def shaChunks : Nat → List Nat → List Nat → List Nat
  | 0, st, _ => st
  | _+1, st, [] => st
  | fuel+1, st, bytes => shaChunks fuel (shaCompress st (bytes.take 64)) (bytes.drop 64)

/-- SHA-256 of a byte list. -/
def sha256 (msg : List Nat) : List Nat :=
  let bitLen := msg.length * 8
  let padLen := (119 - msg.length % 64) % 64 + 1
  let padded := msg ++ (128 :: List.replicate (padLen - 1) 0) ++ natToBeBytes 8 bitLen
  (shaChunks (padded.length / 64) shaH0 padded).flatMap wordBytes

/-! ## Base58check and WIF private-key decoding -/

/-- The base58 alphabet. -/
def b58Alphabet : List Char :=
  "123456789ABCDEFGHJKLMNPQRSTUVWXYZabcdefghijkmnopqrstuvwxyz".toList

/-- Value of a base58 digit character. -/
def b58Val (c : Char) : Option Nat := b58Alphabet.findIdx? (· = c)

/-- Accumulate the numeric value of base58 digits. -/
def b58Num : List Char → Nat → Option Nat
  | [], acc => some acc
  | c :: rest, acc =>
      match b58Val c with
      | none => none
      | some v => b58Num rest (acc * 58 + v)

/-- Count of leading '1' digits (each denotes a zero byte). -/
def b58LeadingOnes : List Char → Nat
  | '1' :: rest => b58LeadingOnes rest + 1
  | _ => 0

/-- Base58 decoding to bytes, as `base58::from` in rust-tapyrus.  A base58
digit carries less than one byte, so the character count bounds the byte
count of the numeric part. -/
def b58Decode (s : String) : Option (List Nat) :=
  match b58Num s.toList 0 with
  | none => none
  | some n => some (List.replicate (b58LeadingOnes s.toList) 0 ++ natToBeBytesMin s.toList.length n)

/-- Base58check decoding: strip and verify the 4-byte double-SHA256
checksum, as `base58::from_check`. -/
def b58DecodeCheck (s : String) : Option (List Nat) :=
  match b58Decode s with
  | none => none
  | some bytes =>
      if bytes.length < 4 then none
      else
        let payload := bytes.take (bytes.length - 4)
        let ck := bytes.drop (bytes.length - 4)
        if (sha256 (sha256 payload)).take 4 = ck then some payload else none

/-- Model of `tapyrus::PrivateKey`: network is irrelevant downstream, the
compression flag and the secret scalar are what the command uses. -/
structure PrivateKey where
  compressed : Bool
  key : Nat
deriving DecidableEq, Repr

/-- Decode a WIF-encoded private key, as `tapyrus::PrivateKey::from_wif`:
base58check, then length/compression-flag analysis, version-byte check and
secret-key range validation (`0 < key < groupN`). -/
def fromWif (s : String) : Option PrivateKey :=
  match b58DecodeCheck s with
  | none => none
  | some data =>
      let comp : Option Bool :=
        if data.length = 33 then some false
        else if data.length = 34 then
          if data.getD 33 0 = 1 then some true else none
        else none
      match comp with
      | none => none
      | some c =>
          if data.getD 0 0 = 128 ∨ data.getD 0 0 = 239 then
            let k := beBytesToNat ((data.drop 1).take 32)
            if 0 < k ∧ k < groupN then some ⟨c, k⟩ else none
          else none

/-! ## Public keys: parsing, serialisation, display -/

/-- Model of `tapyrus::PublicKey`: the underlying curve point together with
the compression flag recorded at construction time (the flag governs
display and equality, exactly as the `PublicKey` struct's derived
`PartialEq` does). -/
structure PublicKey where
  point : Point
  compressed : Bool
deriving DecidableEq, Repr

/-- Compressed SEC1 serialisation of a point, as
`secp256k1::PublicKey::serialize` (the point at infinity never inhabits the
library type; it is given an all-zero image, which no parser accepts). -/
def serializeComp : Point → List Nat
  | .inf => List.replicate 33 0
  | .mk x y => (2 + y % 2) :: natToBeBytes 32 x

/-- Uncompressed SEC1 serialisation of a point. -/
def serializeUncomp : Point → List Nat
  | .inf => List.replicate 65 0
  | .mk x y => 4 :: (natToBeBytes 32 x ++ natToBeBytes 32 y)

/-- Serialisation of a `tapyrus::PublicKey`, honouring its compression
flag (this is what `Display` prints and what the canonical participant
ordering compares). -/
def pkSerialize (pk : PublicKey) : List Nat :=
  if pk.compressed then serializeComp pk.point else serializeUncomp pk.point

/-- Display form of a public key: lowercase hex of its serialisation. -/
def pkDisplay (pk : PublicKey) : String := bytesToHex (pkSerialize pk)

/-- Decompress an x-coordinate: the square root of `x³ + 7` with the parity
selected by the prefix byte, computed by the `p ≡ 3 (mod 4)` exponentiation
used by libsecp256k1. -/
def decompressY (x pref : Nat) : Nat :=
  let z := (x * x % fieldP * x % fieldP + 7) % fieldP
  let y0 := powMod z ((fieldP + 1) / 4) fieldP
  if y0 % 2 = pref % 2 then y0 else (fieldP - y0) % fieldP

/-- Parse an SEC1-encoded public key from bytes, as
`secp256k1::PublicKey::from_slice`: 33-byte compressed or 65-byte
uncompressed form, rejecting out-of-field coordinates and off-curve
points. -/
def pkFromSlice (bs : List Nat) : Option PublicKey :=
  if bs.length = 33 ∧ (bs.getD 0 0 = 2 ∨ bs.getD 0 0 = 3) then
    let x := beBytesToNat (bs.drop 1)
    let y := decompressY x (bs.getD 0 0)
    if x < fieldP ∧ onCurve x y then some ⟨.mk x y, true⟩ else none
  else if bs.length = 65 ∧ bs.getD 0 0 = 4 then
    let x := beBytesToNat ((bs.drop 1).take 32)
    let y := beBytesToNat (bs.drop 33)
    if x < fieldP ∧ y < fieldP ∧ onCurve x y then some ⟨.mk x y, false⟩ else none
  else none

/-- Serialisation of a curv `GE` as a 65-byte uncompressed slice, as
`ECPoint::pk_to_key_slice` (curv's point type never holds the identity; the
identity is given an all-zero image, which `pkFromSlice` rejects). -/
def pkToKeySlice : Point → List Nat
  | .inf => List.replicate 65 0
  | .mk x y => 4 :: (natToBeBytes 32 x ++ natToBeBytes 32 y)

/-- Public key derived from a private key, as
`tapyrus::PublicKey::from_private_key`: base-point multiplication, keeping
the private key's compression flag. -/
def derivePubkey (sk : PrivateKey) : PublicKey := ⟨mulG sk.key, sk.compressed⟩

/-! ## VSS data model (crate::crypto::vss) -/

/-- Modelled from the spec: the `VssContribution` broadcast by one sender
(`crypto/vss.rs` is outside the provided sources).  Fields follow §3 of the
spec and the serialised layout observed in the repository's test vectors:
sender key, receiver key, and commitment/share data (a positive and a
negative group, of which aggregation consumes the positive one). -/
structure Vss where
  sender_public_key : PublicKey
  receiver_public_key : PublicKey
  positive_commitments : List Point
  positive_secret : Nat
  negative_commitments : List Point
  negative_secret : Nat
deriving DecidableEq, Repr

/-- Parse `cnt` consecutive 64-byte affine points, validating each
coordinate pair against the field and the curve equation. -/
def parseCommitments : Nat → List Nat → Option (List Point)
  | 0, _ => some []
  | cnt+1, bs =>
      let x := beBytesToNat (bs.take 32)
      let y := beBytesToNat ((bs.drop 32).take 32)
      if x < fieldP ∧ y < fieldP ∧ onCurve x y then
        match parseCommitments cnt (bs.drop 64) with
        | some ps => some (Point.mk x y :: ps)
        | none => none
      else none

/-- Modelled from the spec: `Vss::from_str` (§4.2; `crypto/vss.rs` is
outside the provided sources).  Structural validation only: hex decoding,
the two 33-byte sender/receiver keys, the 2-byte commitment count, an exact
total length, point decoding with on-curve validation, and scalar decoding
(scalars are reduced into the group order, as curv's `ECScalar::from`
does).  No Feldman verification happens here. -/
def vssFromStr (s : String) : Option Vss :=
  match hexDecode s with
  | none => none
  | some bs =>
      if bs.length < 68 then none
      else
        match pkFromSlice (bs.take 33), pkFromSlice ((bs.drop 33).take 33) with
        | some sender, some receiver =>
            let cnt := bs.getD 66 0 * 256 + bs.getD 67 0
            let rest := bs.drop 68
            if bs.length = 68 + 2 * (cnt * 64 + 32) then
              match parseCommitments cnt rest,
                    parseCommitments cnt (rest.drop (cnt * 64 + 32)) with
              | some posC, some negC =>
                  let posS := beBytesToNat ((rest.drop (cnt * 64)).take 32) % groupN
                  let negS := beBytesToNat (((rest.drop (cnt * 64 + 32)).drop (cnt * 64)).take 32) % groupN
                  some ⟨sender, receiver, posC, posS, negC, negS⟩
              | _, _ => none
            else none
        | _, _ => none

/-! ## Threshold parameters, shared-secret map, verification -/

/-- Shamir scheme parameters, as curv's `ShamirSecretSharing`. -/
structure ShamirSecretSharing where
  threshold : Nat
  share_count : Nat
deriving DecidableEq, Repr

/-- A sender's Feldman commitment vector with the scheme parameters, as
curv's `VerifiableSS`. -/
structure VerifiableSS where
  parameters : ShamirSecretSharing
  commitments : List Point
deriving DecidableEq, Repr

/-- Per-sender data relevant to the aggregating participant, as the
repository's `SharedSecret`. -/
structure SharedSecret where
  vss : VerifiableSS
  secret_share : Nat
deriving DecidableEq, Repr

/-- The combined outcome, as curv's `SharedKeys`: the aggregate public key
`y` and this participant's private share `x_i`. -/
structure SharedKeys where
  y : Point
  x_i : Nat
deriving DecidableEq, Repr

/-- Byte-lexicographic comparison. -/
def lexLe : List Nat → List Nat → Bool
  | [], _ => true
  | _ :: _, [] => false
  | a :: as, b :: bs => if a < b then true else if b < a then false else lexLe as bs

/-- Comparator underlying the canonical participant order: byte-lexicographic
over the serialised public keys (spec §3). -/
def pkLe (a b : PublicKey) : Bool := lexLe (pkSerialize a) (pkSerialize b)

/-- Insert a key into a list kept sorted by `pkLe` (stable: an equal key
goes after existing ones only when strictly greater, before when
`pkLe` holds). -/
def insertSorted (x : PublicKey) : List PublicKey → List PublicKey
  | [] => [x]
  | y :: ys => if pkLe x y then x :: y :: ys else y :: insertSorted x ys

/-- Modelled from the spec: `NodeParameters::sort_publickey` (§4.1,
`signer_node` is outside the provided sources): a deterministic stable sort
of the participant keys by the canonical byte order of their encodings
(insertion sort; any conforming sort computes the same list). -/
def sortPublickey (keys : List PublicKey) : List PublicKey :=
  keys.foldr insertSorted []

/-- Modelled from the spec: `index_of` (§4.1; `cli/setup/mod.rs` is outside
the provided sources).  Derives the caller's public key and locates it by
equality in the given (already sorted) list, returning the 1-based
position; `none` models the absent case, which the caller cannot receive
as a `Result` (see `execute`). -/
def indexOfOpt (sk : PrivateKey) (keys : List PublicKey) : Option Nat :=
  (keys.findIdx? (fun pk => pk = derivePubkey sk)).map (· + 1)

/-- Modelled from the spec: ordered-map insertion with the `BTreeMap`
semantics used by `SharedSecretMap` (keyed by the sender key's canonical
byte order; inserting an existing key replaces its value). -/
def mapInsert (k : PublicKey) (v : SharedSecret) :
    List (PublicKey × SharedSecret) → List (PublicKey × SharedSecret)
  | [] => [(k, v)]
  | (k0, v0) :: rest =>
      if pkSerialize k = pkSerialize k0 then (k0, v) :: rest
      else if pkLe k k0 then (k, v) :: (k0, v0) :: rest
      else (k0, v0) :: mapInsert k v rest

/-- Modelled from the spec: `vss_to_shared_secret_map` (§3; `cli/setup/mod.rs`
is outside the provided sources): each contribution is reduced to the
sender key, its commitment vector (with the scheme parameters) and the
share owed to this participant, collected into the ordered map. -/
def vssToSharedSecretMap (vssVec : List Vss) (params : ShamirSecretSharing) :
    List (PublicKey × SharedSecret) :=
  vssVec.foldl
    (fun m vss =>
      mapInsert vss.sender_public_key
        ⟨⟨params, vss.positive_commitments⟩, vss.positive_secret⟩ m)
    []

/-- Evaluate a Feldman commitment vector at `index` in the exponent by
Horner's method, as curv's `get_point_commitment`: fold the reversed
commitment list with `acc ↦ c + index · acc`. -/
def polyPointEval (cs : List Point) (index : Nat) : Point :=
  match cs.reverse with
  | [] => .inf
  | h :: t => t.foldl (fun acc c => geAdd c (mulPt index acc)) h

/-- The Feldman share check (spec §4.3 step 1, curv's `validate_share`):
the base point times the declared share must equal the commitment
polynomial evaluated at the participant's index. -/
def validateShare (ss : SharedSecret) (index : Nat) : Bool :=
  mulG ss.secret_share = polyPointEval ss.vss.commitments index

/-- Errors surfaced by the command.  `InvalidArgs`, `InvalidSS` and
`InvalidKey` appear literally in `aggregate.rs`; `InvalidShare` carries the
offending sender as spec §4.3/§7 describe the verification failure. -/
inductive Error where
  | InvalidArgs (field : String)
  | InvalidSS
  | InvalidKey
  | InvalidShare (sender : PublicKey)
deriving DecidableEq, Repr

/-- Modelled from the spec: `Sign::verify_vss_and_construct_key` (§4.3;
`sign.rs` is outside the provided sources).  Verify every contribution's
share against its Feldman commitments, failing with `InvalidShare(sender)`
at the first invalid one; on success sum the shares modulo the group order
into `x_i` and sum the constant-term commitments into `y`. -/
def verifyVssAndConstructKey (m : List (PublicKey × SharedSecret)) (index : Nat) :
    Except Error SharedKeys :=
  match m.find? (fun e => ! validateShare e.2 index) with
  | some e => .error (.InvalidShare e.1)
  | none =>
      let y := (m.map (fun e => e.2.vss.commitments.headD .inf)).foldl geAdd .inf
      let xi := (m.map (fun e => e.2.secret_share)).foldl (· + ·) 0 % groupN
      .ok ⟨y, xi⟩

/-! ## The aggregate command (src/cli/setup/aggregate.rs) -/

/-- The command-line inputs visible to `AggregateCommand::execute` through
clap's `ArgMatches`: the optional `--private-key` value and the optional
list of `--vss` values. -/
structure Matches where
  privateKey : Option String
  vss : Option (List String)

/-- The response carried on success, as `AggregateResponse` in
`aggregate.rs`. -/
structure AggregateResponse where
  aggregated_public_key : PublicKey
  node_shared_secret : Nat
deriving DecidableEq, Repr

/-- The command's observable outcome: a returned response, a returned
`Error`, or a process abort (a Rust panic escaping `execute`). -/
inductive ExecOutcome where
  | ok (r : AggregateResponse)
  | err (e : Error)
  | abort
deriving DecidableEq, Repr

/-- The `fmt::Display` rendering of `AggregateResponse` (aggregate.rs lines
35-40): the public key's display form, a space, and the shared secret's
hex left-padded with zeros to 64 characters. -/
def responseString (r : AggregateResponse) : String :=
  pkDisplay r.aggregated_public_key ++ " " ++ padLeftZero 64 (natToHex r.node_shared_secret)

/-- Parse every `--vss` value in order, as the `collect` over
`Vss::from_str` results: the first structural failure aborts the whole
parse. -/
def parseAll : List String → Option (List Vss)
  | [] => some []
  | s :: rest =>
      match vssFromStr s, parseAll rest with
      | some v, some vs => some (v :: vs)
      | _, _ => none

/-- The two-step re-encoding at the end of `execute` (aggregate.rs lines
73-78): serialise the combined point to an uncompressed slice, parse it,
then re-parse its compressed serialisation; either parse failure is
`Error::InvalidKey`. -/
def reencode (y : Point) : Except Error PublicKey :=
  match pkFromSlice (pkToKeySlice y) with
  | none => .error .InvalidKey
  | some uncompressed =>
      match pkFromSlice (serializeComp uncompressed.point) with
      | none => .error .InvalidKey
      | some publicKey => .ok publicKey

/-- The tail of `execute` once the private key and the contribution list
have been parsed (aggregate.rs lines 57-83): extract and canonically sort
the sender keys, build the shared-secret map with `threshold` pinned to 1
and `share_count` equal to the number of contributions, resolve this
signer's index (a missing key aborts the process: `index_of` returns a
plain `usize`, so the caller cannot receive an error from it), verify and
combine, then re-encode the aggregate key in compressed form. -/
def executeVss (sk : PrivateKey) (vssVec : List Vss) : ExecOutcome :=
  let publicKeys := sortPublickey (vssVec.map (fun vss => vss.sender_public_key))
  let params : ShamirSecretSharing := ⟨1, vssVec.length⟩
  let vssMap := vssToSharedSecretMap vssVec params
  match indexOfOpt sk publicKeys with
  | none => .abort
  | some index =>
      match verifyVssAndConstructKey vssMap index with
      | .error e => .err e
      | .ok sharedKeys =>
          match reencode sharedKeys.y with
          | .error e => .err e
          | .ok publicKey => .ok ⟨publicKey, sharedKeys.x_i⟩

/-- `AggregateCommand::execute` (aggregate.rs lines 45-84): decode the WIF
private key (`InvalidArgs("private-key")` when missing or undecodable),
require the `--vss` list (`InvalidArgs("vss is invalid")` when missing),
parse each contribution (`InvalidSS` on the first structural failure), and
run the aggregation tail. -/
def execute (m : Matches) : ExecOutcome :=
  match m.privateKey.bind fromWif with
  | none => .err (.InvalidArgs "private-key")
  | some sk =>
      match m.vss with
      | none => .err (.InvalidArgs "vss is invalid")
      | some strs =>
          match parseAll strs with
          | none => .err .InvalidSS
          | some vssVec => executeVss sk vssVec

/-! ## The repository's test vector (tests::test_execute) -/

/-- The WIF private key of the worked example. -/
def wifKey : String := "L2hmApEYQBQo81RLJc5MMwo6ZZywnfVzuQj6uCfxFLaV2Yo2pVyq"

/-- First `--vss` value of the worked example. -/
def blob1 : String := "03b8ad9e3271a20d5eb2b622e455fcffa5c9c90e38b192772b2e1b58f6b442e78d0313f2a73541e6d55a75a80a6da819885c6ed6e56ecff19f5e928c4ea202ca7c900002b8ad9e3271a20d5eb2b622e455fcffa5c9c90e38b192772b2e1b58f6b442e78d1bb2811fe36fa9e15b7afc0ecdb4c51cad86c2c9135607f38e4ae58198311273bf7eb32ebd24be2854eeb231efb2c2515375a5d67a9aebbca6fb2a3a89653230b8fc1a0f9198b1db842ad620f01d6fa97bf9cbe7e36d4685d68c49817e9a3478c2efa633314d55aa6e1f6d5ce9f345f1aa8dd6dc3a972c14de923269ed4f7d67b8ad9e3271a20d5eb2b622e455fcffa5c9c90e38b192772b2e1b58f6b442e78d1bb2811fe36fa9e15b7afc0ecdb4c51cad86c2c9135607f38e4ae58198311273bf7eb32ebd24be2854eeb231efb2c2515375a5d67a9aebbca6fb2a3a89653230b8fc1a0f9198b1db842ad620f01d6fa97bf9cbe7e36d4685d68c49817e9a3478c2efa633314d55aa6e1f6d5ce9f345f1aa8dd6dc3a972c14de923269ed4f7d67"

/-- Second `--vss` value of the worked example. -/
def blob2 : String := "0313f2a73541e6d55a75a80a6da819885c6ed6e56ecff19f5e928c4ea202ca7c900313f2a73541e6d55a75a80a6da819885c6ed6e56ecff19f5e928c4ea202ca7c90000213f2a73541e6d55a75a80a6da819885c6ed6e56ecff19f5e928c4ea202ca7c90adbd69de8655fcc6ead8e771f9f31ead7a431e543bf8ac8d921c80ab301bc8d1c8e12c1e4cce10fc64680e9d69b942e3291f62e8cb84e8e32934f3b92ab01fe5e345110a1f558da2f71a654248fbec93e04a757d2cf7277dbd0c2510d6e915aa3ca6d71918c41a84df9c234d47a887c0697a4f2a5b02c99162fbdb1a85d37f1c13f2a73541e6d55a75a80a6da819885c6ed6e56ecff19f5e928c4ea202ca7c90adbd69de8655fcc6ead8e771f9f31ead7a431e543bf8ac8d921c80ab301bc8d1c8e12c1e4cce10fc64680e9d69b942e3291f62e8cb84e8e32934f3b92ab01fe5e345110a1f558da2f71a654248fbec93e04a757d2cf7277dbd0c2510d6e915aa3ca6d71918c41a84df9c234d47a887c0697a4f2a5b02c99162fbdb1a85d37f1c"

/-- Third `--vss` value of the worked example. -/
def blob3 : String := "023cb7d6326e33332d04d026be1a04cdaf084703d8dc75322182d8fb314a03a8770313f2a73541e6d55a75a80a6da819885c6ed6e56ecff19f5e928c4ea202ca7c9000023cb7d6326e33332d04d026be1a04cdaf084703d8dc75322182d8fb314a03a877be6e3e5cdfc8877c9f9b1a0bbee781019c55098025b03fcede5e4947d16f6140b9e82400e4ba7c8fce269ded9b65df2fdf7d75b3f2a38584a861792019de52d19c5ef89431259b68b4cfd6374c826f4fb33f9f92f701e39644bcddf15cfadf368563c6d7708aee02f688255e3695d187cfb7a9555b09eb19236c3918a7be7f2e3cb7d6326e33332d04d026be1a04cdaf084703d8dc75322182d8fb314a03a877be6e3e5cdfc8877c9f9b1a0bbee781019c55098025b03fcede5e4947d16f6140b9e82400e4ba7c8fce269ded9b65df2fdf7d75b3f2a38584a861792019de52d19c5ef89431259b68b4cfd6374c826f4fb33f9f92f701e39644bcddf15cfadf368563c6d7708aee02f688255e3695d187cfb7a9555b09eb19236c3918a7be7f2e"

/-- The worked example's full command line. -/
def exampleMatches : Matches := ⟨some wifKey, some [blob1, blob2, blob3]⟩

/-- The expected rendered result of the worked example. -/
def expectedOutput : String := "03addb2555f37abf8f28f11f498bec7bd1460e7243c1813847c49a7ae326a97d1c 84fa4423ba9c5e324443b60868319f3b2910f275415b4083a527e8104aab3a70"

/-! ## Byte-encoding lemmas -/

theorem natToBeBytes_length (len n : Nat) : (natToBeBytes len n).length = len := by
  induction len generalizing n with
  | zero => rfl
  | succ k ih => simp [natToBeBytes, ih]

theorem beBytesToNat_append_one (l : List Nat) (b : Nat) :
    beBytesToNat (l ++ [b]) = beBytesToNat l * 256 + b := by
  simp [beBytesToNat, List.foldl_append]

theorem beBytesToNat_natToBeBytes (len n : Nat) :
    beBytesToNat (natToBeBytes len n) = n % 256 ^ len := by
  induction len generalizing n with
  | zero => simp [natToBeBytes, beBytesToNat, Nat.mod_one]
  | succ k ih =>
      rw [natToBeBytes, beBytesToNat_append_one, ih, Nat.pow_succ,
        Nat.mul_comm (256 ^ k) 256, Nat.mod_mul]
      ring

theorem beBytesToNat_natToBeBytes_of_lt (len n : Nat) (h : n < 256 ^ len) :
    beBytesToNat (natToBeBytes len n) = n := by
  rw [beBytesToNat_natToBeBytes, Nat.mod_eq_of_lt h]

/-! ## Hex-rendering lemmas -/

theorem hexChar_mem (v : Nat) : hexChar v ∈ hexChars := by
  by_cases h : v < hexChars.length
  · rw [hexChar, List.getD_eq_getElem _ _ h]
    exact List.getElem_mem h
  · rw [hexChar, List.getD_eq_default _ _ (Nat.le_of_not_lt h)]
    simp [hexChars]

theorem natHexDigitsAux_length (fuel : Nat) :
    ∀ n acc, n < 16 ^ fuel →
      (natHexDigitsAux fuel n acc).length ≤ fuel + acc.length := by
  induction fuel with
  | zero => intro n acc _; simp [natHexDigitsAux]
  | succ k ih =>
      intro n acc hn
      match n with
      | 0 => simp [natHexDigitsAux]
      | m+1 =>
          have hunf : natHexDigitsAux (k+1) (m+1) acc
              = natHexDigitsAux k ((m+1) / 16) (hexChar ((m+1) % 16) :: acc) := rfl
          rw [hunf]
          have hdiv : (m+1) / 16 < 16 ^ k := by
            rw [Nat.div_lt_iff_lt_mul (by norm_num)]
            calc m + 1 < 16 ^ (k+1) := hn
            _ = 16 ^ k * 16 := by rw [Nat.pow_succ]
          have := ih ((m+1) / 16) (hexChar ((m+1) % 16) :: acc) hdiv
          exact le_trans this (by simp; omega)

theorem natHexDigitsAux_subset (fuel : Nat) :
    ∀ n acc, (∀ c ∈ acc, c ∈ hexChars) →
      ∀ c ∈ natHexDigitsAux fuel n acc, c ∈ hexChars := by
  induction fuel with
  | zero => intro n acc hacc; simpa [natHexDigitsAux] using hacc
  | succ k ih =>
      intro n acc hacc
      match n with
      | 0 => simpa [natHexDigitsAux] using hacc
      | m+1 =>
          have hunf : natHexDigitsAux (k+1) (m+1) acc
              = natHexDigitsAux k ((m+1) / 16) (hexChar ((m+1) % 16) :: acc) := rfl
          rw [hunf]
          refine ih _ _ ?_
          intro c hc
          rcases List.mem_cons.mp hc with h | h
          · exact h ▸ hexChar_mem _
          · exact hacc c h

theorem natToHex_length_le (n : Nat) (h : n < 2 ^ 256) :
    (natToHex n).length ≤ 64 := by
  by_cases h0 : n = 0
  · subst h0; decide
  · have h16 : n < 16 ^ 64 := by
      calc n < 2 ^ 256 := h
      _ = 16 ^ 64 := by norm_num
    have hlen := natHexDigitsAux_length 64 n [] h16
    have hunf : natToHex n = ⟨natHexDigitsAux 64 n []⟩ := by
      rw [natToHex, if_neg h0]
    rw [hunf]
    show (natHexDigitsAux 64 n []).length ≤ 64
    simpa using hlen

theorem natToHex_subset (n : Nat) : ∀ c ∈ (natToHex n).toList, c ∈ hexChars := by
  by_cases h0 : n = 0
  · intro c hc
    simp [natToHex, h0] at hc
    simp [hc, hexChars]
  · intro c hc
    simp only [natToHex, h0, if_false] at hc
    exact natHexDigitsAux_subset 64 n [] (by simp) c hc

theorem padLeftZero_length (w : Nat) (s : String) (h : s.length ≤ w) :
    (padLeftZero w s).length = w := by
  show (List.replicate (w - s.length) '0' ++ s.toList).length = w
  rw [List.length_append, List.length_replicate]
  have hts : s.toList.length = s.length := rfl
  omega

theorem padLeftZero_subset (w : Nat) (s : String) (hs : ∀ c ∈ s.toList, c ∈ hexChars) :
    ∀ c ∈ (padLeftZero w s).toList, c ∈ hexChars := by
  intro c hc
  have hc2 : c ∈ List.replicate (w - s.length) '0' ++ s.toList := hc
  rcases List.mem_append.mp hc2 with h | h
  · rw [List.eq_of_mem_replicate h]
    simp [hexChars]
  · exact hs c h

/-! ## Exponentiation correctness -/

theorem powModAux_eq (fuel : Nat) :
    ∀ b e m, 1 < m → e < 2 ^ fuel → powModAux fuel (b % m) e m = b ^ e % m := by
  induction fuel with
  | zero =>
      intro b e m hm he
      have h0 : e = 0 := by omega
      simp [powModAux, h0, Nat.mod_eq_of_lt hm]
  | succ k ih =>
      intro b e m hm he
      rw [powModAux]
      by_cases h0 : e = 0
      · simp [h0, Nat.mod_eq_of_lt hm]
      · simp only [h0, if_false]
        have hsq : b % m * (b % m) % m = b * b % m := (Nat.mul_mod b b m).symm
        have hdiv : e / 2 < 2 ^ k := by
          rw [Nat.div_lt_iff_lt_mul (by norm_num)]
          calc e < 2 ^ (k+1) := he
          _ = 2 ^ k * 2 := by rw [Nat.pow_succ]
        rw [hsq, ih (b * b) (e / 2) m hm hdiv]
        rcases Nat.mod_two_eq_zero_or_one e with hpar | hpar
        · have hbe : b ^ e = (b * b) ^ (e / 2) := by
            conv_lhs => rw [show e = 2 * (e / 2) by omega]
            rw [Nat.pow_mul, Nat.pow_two]
          simp [hpar, hbe]
        · have hbe : b ^ e = (b * b) ^ (e / 2) * b := by
            conv_lhs => rw [show e = 2 * (e / 2) + 1 by omega]
            rw [Nat.pow_succ, Nat.pow_mul, Nat.pow_two]
          simp only [hpar, if_true]
          rw [← Nat.mul_mod, hbe]

theorem powMod_eq (b e m : Nat) (hm : 1 < m) (he : e < 2 ^ 257) :
    powMod b e m = b ^ e % m :=
  powModAux_eq 257 b e m hm he

/-! ## Canonical ordering lemmas -/

theorem lexLe_total (a b : List Nat) : lexLe a b = true ∨ lexLe b a = true := by
  induction a generalizing b with
  | nil => left; rfl
  | cons x xs ih =>
      cases b with
      | nil => right; rfl
      | cons y ys =>
          rcases Nat.lt_trichotomy x y with h | h | h
          · left; simp [lexLe, h]
          · subst h
            rcases ih ys with h2 | h2
            · left; simp [lexLe, h2]
            · right; simp [lexLe, h2]
          · right; simp [lexLe, h]

theorem lexLe_antisymm (a b : List Nat) :
    lexLe a b = true → lexLe b a = true → a = b := by
  induction a generalizing b with
  | nil =>
      intro _ hba
      cases b with
      | nil => rfl
      | cons y ys => simp [lexLe] at hba
  | cons x xs ih =>
      intro hab hba
      cases b with
      | nil => simp [lexLe] at hab
      | cons y ys =>
          rcases Nat.lt_trichotomy x y with h | h | h
          · simp [lexLe, h, Nat.lt_asymm h] at hba
          · subst h
            simp only [lexLe, Nat.lt_irrefl, if_false] at hab hba
            rw [ih ys hab hba]
          · simp [lexLe, h, Nat.lt_asymm h] at hab

theorem lexLe_trans (a : List Nat) :
    ∀ b c, lexLe a b = true → lexLe b c = true → lexLe a c = true := by
  induction a with
  | nil => intro b c _ _; rfl
  | cons x xs ih =>
      intro b c hab hbc
      cases b with
      | nil => simp [lexLe] at hab
      | cons y ys =>
          cases c with
          | nil => simp [lexLe] at hbc
          | cons z zs =>
              simp only [lexLe] at hab hbc ⊢
              by_cases h1 : x < y
              · by_cases h2 : y < z
                · simp [Nat.lt_trans h1 h2]
                · by_cases h3 : z < y
                  · simp [h2, h3] at hbc
                  · have hyz : y = z := by omega
                    subst hyz
                    simp [h1]
              · by_cases h3 : y < x
                · simp [h1, h3] at hab
                · have hxy : x = y := by omega
                  subst hxy
                  simp only [Nat.lt_irrefl, if_false] at hab
                  by_cases h2 : x < z
                  · simp [h2]
                  · by_cases h4 : z < x
                    · simp [h2, h4] at hbc
                    · have hxz : x = z := by omega
                      subst hxz
                      simp only [Nat.lt_irrefl, if_false] at hbc ⊢
                      exact ih ys zs hab hbc

theorem pkLe_total (a b : PublicKey) : pkLe a b = true ∨ pkLe b a = true :=
  lexLe_total _ _

theorem pkLe_trans {a b c : PublicKey} (h1 : pkLe a b = true) (h2 : pkLe b c = true) :
    pkLe a c = true :=
  lexLe_trans _ _ _ h1 h2

theorem pkLe_antisymm_ser {a b : PublicKey} (h1 : pkLe a b = true) (h2 : pkLe b a = true) :
    pkSerialize a = pkSerialize b :=
  lexLe_antisymm _ _ h1 h2

theorem insertSorted_perm (x : PublicKey) (l : List PublicKey) :
    (insertSorted x l).Perm (x :: l) := by
  induction l with
  | nil => rfl
  | cons y ys ih =>
      rw [insertSorted]
      by_cases h : pkLe x y = true
      · simp [h]
      · rw [if_neg h]
        exact (ih.cons y).trans (List.Perm.swap x y ys)

theorem sortPublickey_perm (l : List PublicKey) : (sortPublickey l).Perm l := by
  induction l with
  | nil => rfl
  | cons x xs ih => exact (insertSorted_perm x _).trans (ih.cons x)

theorem mem_insertSorted {a x : PublicKey} {l : List PublicKey}
    (h : a ∈ insertSorted x l) : a = x ∨ a ∈ l :=
  List.mem_cons.mp ((insertSorted_perm x l).mem_iff.mp h)

theorem insertSorted_pairwise (x : PublicKey) (l : List PublicKey)
    (hl : l.Pairwise (fun a b => pkLe a b = true)) :
    (insertSorted x l).Pairwise (fun a b => pkLe a b = true) := by
  induction l with
  | nil => simp [insertSorted]
  | cons y ys ih =>
      rw [insertSorted]
      rcases List.pairwise_cons.mp hl with ⟨hy, hys⟩
      by_cases h : pkLe x y = true
      · rw [if_pos h]
        refine List.pairwise_cons.mpr ⟨?_, hl⟩
        intro b hb
        rcases List.mem_cons.mp hb with hb | hb
        · exact hb ▸ h
        · exact pkLe_trans h (hy b hb)
      · have hyx : pkLe y x = true := (pkLe_total x y).resolve_left h
        rw [if_neg h]
        refine List.pairwise_cons.mpr ⟨?_, ih hys⟩
        intro b hb
        rcases mem_insertSorted hb with hb | hb
        · exact hb ▸ hyx
        · exact hy b hb

theorem sortPublickey_pairwise (l : List PublicKey) :
    (sortPublickey l).Pairwise (fun a b => pkLe a b = true) := by
  induction l with
  | nil => simp [sortPublickey]
  | cons x xs ih => exact insertSorted_pairwise x _ ih

theorem sorted_perm_eq :
    ∀ (l1 l2 : List PublicKey),
      l1.Pairwise (fun a b => pkLe a b = true) →
      l2.Pairwise (fun a b => pkLe a b = true) →
      l1.Perm l2 →
      (∀ a ∈ l1, ∀ b ∈ l1, pkSerialize a = pkSerialize b → a = b) →
      l1 = l2 := by
  intro l1
  induction l1 with
  | nil => intro l2 _ _ hp _; simpa using hp.nil_eq
  | cons x xs ih =>
      intro l2 h1 h2 hp hinj
      cases l2 with
      | nil => exact absurd hp.symm (by simp)
      | cons y ys =>
          rcases List.pairwise_cons.mp h1 with ⟨hx, hxs⟩
          rcases List.pairwise_cons.mp h2 with ⟨hy, hys⟩
          have hxy : x = y := by
            have hymem : y ∈ x :: xs := hp.symm.subset (List.mem_cons_self y ys)
            have hxmem : x ∈ y :: ys := hp.subset (List.mem_cons_self x xs)
            rcases List.mem_cons.mp hymem with h | h
            · exact h.symm
            rcases List.mem_cons.mp hxmem with h' | h'
            · exact h'
            have hle1 : pkLe x y = true := hx y h
            have hle2 : pkLe y x = true := hy x h'
            exact hinj x (List.mem_cons_self x xs) y hymem (pkLe_antisymm_ser hle1 hle2)
          subst hxy
          have hp2 : xs.Perm ys := hp.cons_inv
          have hinj2 : ∀ a ∈ xs, ∀ b ∈ xs, pkSerialize a = pkSerialize b → a = b :=
            fun a ha b hb => hinj a (List.mem_cons_of_mem x ha) b (List.mem_cons_of_mem x hb)
          rw [ih ys hxs hys hp2 hinj2]

theorem sortPublickey_eq_of_perm (l l' : List PublicKey) (hp : l.Perm l')
    (hinj : ∀ a ∈ l, ∀ b ∈ l, pkSerialize a = pkSerialize b → a = b) :
    sortPublickey l = sortPublickey l' := by
  refine sorted_perm_eq _ _ (sortPublickey_pairwise l) (sortPublickey_pairwise l')
    ((sortPublickey_perm l).trans (hp.trans (sortPublickey_perm l').symm)) ?_
  intro a ha b hb
  exact hinj a ((sortPublickey_perm l).subset ha) b ((sortPublickey_perm l).subset hb)

/-! ## Search and parse lemmas -/

theorem find?_exists {α : Type} (p : α → Bool) :
    ∀ l : List α, (∃ a ∈ l, p a = true) → ∃ a, l.find? p = some a ∧ p a = true := by
  intro l
  induction l with
  | nil => rintro ⟨a, ha, _⟩; cases ha
  | cons x xs ih =>
      rintro ⟨a, ha, hpa⟩
      by_cases hx : p x = true
      · exact ⟨x, List.find?_cons_of_pos _ hx, hx⟩
      · rcases List.mem_cons.mp ha with rfl | ha2
        · exact absurd hpa hx
        · rcases ih ⟨a, ha2, hpa⟩ with ⟨b, hb, hpb⟩
          exact ⟨b, by rw [List.find?_cons_of_neg _ (by simpa using hx), hb], hpb⟩

theorem parseAll_none_of_mem {strs : List String} {s : String}
    (hs : s ∈ strs) (h : vssFromStr s = none) : parseAll strs = none := by
  induction strs with
  | nil => cases hs
  | cons t ts ih =>
      rcases List.mem_cons.mp hs with rfl | hmem
      · simp [parseAll, h]
      · rw [parseAll, ih hmem]
        cases vssFromStr t <;> rfl

/-! ## Verification lemmas -/

theorem verify_invalidShare (m : List (PublicKey × SharedSecret)) (index : Nat)
    (h : ∃ e ∈ m, validateShare e.2 index = false) :
    ∃ e ∈ m, validateShare e.2 index = false ∧
      verifyVssAndConstructKey m index = .error (.InvalidShare e.1) := by
  have h2 : ∃ e ∈ m, (! validateShare e.2 index) = true := by
    rcases h with ⟨e, he, hv⟩
    exact ⟨e, he, by simp [hv]⟩
  rcases find?_exists _ m h2 with ⟨e, hfind, hpe⟩
  have hmem : e ∈ m := List.mem_of_find?_eq_some hfind
  refine ⟨e, hmem, by simpa using hpe, ?_⟩
  rw [verifyVssAndConstructKey, hfind]

theorem verify_ok_xi {m : List (PublicKey × SharedSecret)} {index : Nat} {sk : SharedKeys}
    (h : verifyVssAndConstructKey m index = .ok sk) : sk.x_i < groupN := by
  rw [verifyVssAndConstructKey] at h
  cases hf : m.find? (fun e => ! validateShare e.2 index) with
  | some e => rw [hf] at h; cases h
  | none =>
      rw [hf] at h
      cases h
      exact Nat.mod_lt _ (by decide)

/-! ## Re-encoding lemmas -/

theorem serializeComp_length (pt : Point) : (serializeComp pt).length = 33 := by
  cases pt with
  | inf => simp [serializeComp]
  | mk x y => simp [serializeComp, natToBeBytes_length]

theorem pkFromSlice_serializeComp_compressed {pt : Point} {pk : PublicKey}
    (h : pkFromSlice (serializeComp pt) = some pk) : pk.compressed = true := by
  cases pt with
  | inf =>
      rw [serializeComp, pkFromSlice] at h
      simp at h
  | mk x y =>
      rw [serializeComp, pkFromSlice] at h
      have hlen : ((2 + y % 2) :: natToBeBytes 32 x).length = 33 := by
        simp [natToBeBytes_length]
      have hpre : ((2 + y % 2) :: natToBeBytes 32 x).getD 0 0 = 2 ∨
          ((2 + y % 2) :: natToBeBytes 32 x).getD 0 0 = 3 := by
        simp [List.getD]
        omega
      rw [if_pos ⟨hlen, hpre⟩] at h
      by_cases hc : beBytesToNat (((2 + y % 2) :: natToBeBytes 32 x).drop 1) < fieldP ∧
          onCurve (beBytesToNat (((2 + y % 2) :: natToBeBytes 32 x).drop 1))
            (decompressY (beBytesToNat (((2 + y % 2) :: natToBeBytes 32 x).drop 1))
              (((2 + y % 2) :: natToBeBytes 32 x).getD 0 0)) = true
      · rw [if_pos hc] at h
        cases h
        rfl
      · rw [if_neg hc] at h
        cases h

theorem reencode_ok_compressed {y : Point} {pk : PublicKey}
    (h : reencode y = .ok pk) : pk.compressed = true := by
  rw [reencode] at h
  split at h
  · cases h
  · split at h
    · cases h
    · rename_i u _ pk2 h2
      cases h
      exact pkFromSlice_serializeComp_compressed h2

theorem reencode_cases (y : Point) :
    reencode y = .error .InvalidKey ∨ ∃ pk, reencode y = .ok pk ∧ pk.compressed = true := by
  rw [reencode]
  split
  · left; rfl
  · split
    · left; rfl
    · rename_i u _ pk2 h2
      right
      exact ⟨pk2, rfl, pkFromSlice_serializeComp_compressed h2⟩

/-! ## Outcome-inversion lemmas for execute -/

theorem executeVss_ok {sk : PrivateKey} {vssVec : List Vss} {r : AggregateResponse}
    (h : executeVss sk vssVec = .ok r) :
    r.aggregated_public_key.compressed = true ∧ r.node_shared_secret < groupN := by
  rw [executeVss] at h
  split at h
  · cases h
  · split at h
    · cases h
    · rename_i index _ sharedKeys hv
      split at h
      · cases h
      · rename_i publicKey hre
        cases h
        exact ⟨reencode_ok_compressed hre, verify_ok_xi hv⟩

theorem execute_ok {m : Matches} {r : AggregateResponse} (h : execute m = .ok r) :
    r.aggregated_public_key.compressed = true ∧ r.node_shared_secret < groupN := by
  rw [execute] at h
  split at h
  · cases h
  · split at h
    · cases h
    · split at h
      · cases h
      · exact executeVss_ok h

/-! ## Stage-composition lemmas for execute -/

theorem execute_eq_executeVss {m : Matches} {sk : PrivateKey} {strs : List String}
    {vssVec : List Vss} (hsk : m.privateKey.bind fromWif = some sk)
    (hvs : m.vss = some strs) (hvv : parseAll strs = some vssVec) :
    execute m = executeVss sk vssVec := by
  simp only [execute, hsk, hvs, hvv]

theorem executeVss_err_of_verify {sk : PrivateKey} {vssVec : List Vss} {index : Nat} {e : Error}
    (hidx : indexOfOpt sk (sortPublickey (vssVec.map (fun vss => vss.sender_public_key)))
      = some index)
    (hv : verifyVssAndConstructKey (vssToSharedSecretMap vssVec ⟨1, vssVec.length⟩) index
      = .error e) :
    executeVss sk vssVec = .err e := by
  simp only [executeVss, hidx, hv]

theorem executeVss_abort_of_absent {sk : PrivateKey} {vssVec : List Vss}
    (hidx : indexOfOpt sk (sortPublickey (vssVec.map (fun vss => vss.sender_public_key)))
      = none) :
    executeVss sk vssVec = .abort := by
  simp only [executeVss, hidx]

theorem indexOfOpt_eq_none {sk : PrivateKey} {keys : List PublicKey}
    (h : derivePubkey sk ∉ keys) : indexOfOpt sk keys = none := by
  rw [indexOfOpt]
  have hfi : keys.findIdx? (fun pk => pk = derivePubkey sk) = none := by
    rw [List.findIdx?_eq_none_iff]
    intro pk hpk
    rw [decide_eq_false_iff_not]
    intro hc
    exact h (hc ▸ hpk)
  rw [hfi]
  rfl

/-! ## Parameter-independence machinery (the threshold is never consulted) -/

/-- Replace the recorded scheme parameters of one map entry. -/
def paramSet (p : ShamirSecretSharing) (e : PublicKey × SharedSecret) :
    PublicKey × SharedSecret :=
  (e.1, ⟨⟨p, e.2.vss.commitments⟩, e.2.secret_share⟩)

theorem mapInsert_paramSet (p : ShamirSecretSharing) (k : PublicKey) (v : SharedSecret)
    (m : List (PublicKey × SharedSecret)) :
    mapInsert k (paramSet p (k, v)).2 (m.map (paramSet p))
      = (mapInsert k v m).map (paramSet p) := by
  induction m with
  | nil => rfl
  | cons e es ih =>
      simp only [List.map_cons, mapInsert, paramSet]
      by_cases h1 : pkSerialize k = pkSerialize e.1
      · simp [h1, paramSet]
      · by_cases h2 : pkLe k e.1 = true
        · simp [h1, h2, paramSet]
        · simp only [h1, h2, if_false, List.map_cons]
          refine congrArg _ ?_
          simpa [paramSet] using ih

theorem vssToSharedSecretMap_paramSet (p q : ShamirSecretSharing) (vssVec : List Vss) :
    vssToSharedSecretMap vssVec p
      = (vssToSharedSecretMap vssVec q).map (paramSet p) := by
  rw [vssToSharedSecretMap, vssToSharedSecretMap]
  have main : ∀ (v : List Vss) (acc : List (PublicKey × SharedSecret)),
      v.foldl (fun m vss =>
          mapInsert vss.sender_public_key
            ⟨⟨p, vss.positive_commitments⟩, vss.positive_secret⟩ m) (acc.map (paramSet p))
        = (v.foldl (fun m vss =>
            mapInsert vss.sender_public_key
              ⟨⟨q, vss.positive_commitments⟩, vss.positive_secret⟩ m) acc).map (paramSet p) := by
    intro v
    induction v with
    | nil => intro acc; rfl
    | cons x xs ih =>
        intro acc
        rw [List.foldl_cons, List.foldl_cons]
        have hstep := mapInsert_paramSet p x.sender_public_key
          ⟨⟨q, x.positive_commitments⟩, x.positive_secret⟩ acc
        simp only [paramSet] at hstep
        rw [hstep]
        exact ih _
  simpa using main vssVec []

theorem verify_map_paramSet (p : ShamirSecretSharing)
    (m : List (PublicKey × SharedSecret)) (index : Nat) :
    verifyVssAndConstructKey (m.map (paramSet p)) index
      = verifyVssAndConstructKey m index := by
  rw [verifyVssAndConstructKey, verifyVssAndConstructKey]
  rw [List.find?_map]
  have hpred : ((fun e => ! validateShare e.2 index) ∘ paramSet p)
      = (fun (e : PublicKey × SharedSecret) => ! validateShare e.2 index) := by
    funext e
    rfl
  rw [hpred]
  cases hf : m.find? (fun e => ! validateShare e.2 index) with
  | some e => rfl
  | none =>
      simp only [Option.map_none]
      rw [List.map_map, List.map_map]
      rfl

theorem verify_params_indep (p q : ShamirSecretSharing) (vssVec : List Vss) (index : Nat) :
    verifyVssAndConstructKey (vssToSharedSecretMap vssVec p) index
      = verifyVssAndConstructKey (vssToSharedSecretMap vssVec q) index := by
  rw [vssToSharedSecretMap_paramSet p q, verify_map_paramSet]

/-- The aggregation tail generalised over the scheme parameters handed to
the shared-secret map; `executeVss` is this at `⟨1, vssVec.length⟩`. -/
def executeCore (sk : PrivateKey) (vssVec : List Vss) (params : ShamirSecretSharing) :
    ExecOutcome :=
  let publicKeys := sortPublickey (vssVec.map (fun vss => vss.sender_public_key))
  let vssMap := vssToSharedSecretMap vssVec params
  match indexOfOpt sk publicKeys with
  | none => .abort
  | some index =>
      match verifyVssAndConstructKey vssMap index with
      | .error e => .err e
      | .ok sharedKeys =>
          match reencode sharedKeys.y with
          | .error e => .err e
          | .ok publicKey => .ok ⟨publicKey, sharedKeys.x_i⟩

theorem executeVss_eq_core (sk : PrivateKey) (vssVec : List Vss) :
    executeVss sk vssVec = executeCore sk vssVec ⟨1, vssVec.length⟩ := rfl

theorem executeCore_params_indep (sk : PrivateKey) (vssVec : List Vss)
    (p q : ShamirSecretSharing) :
    executeCore sk vssVec p = executeCore sk vssVec q := by
  simp only [executeCore, verify_params_indep p q]

/-! ## Concrete inputs used by witnesses and counterexamples -/

/-- The worked example's private key after WIF decoding. -/
def exampleSk : PrivateKey :=
  ⟨true, 0xa39e231e1b5b69cf12b3f4542c1197bf848528df47a21498542c504ceeee54d1⟩

/-- The response the worked example produces. -/
def exampleResponse : AggregateResponse :=
  ⟨⟨.mk 78637319993943231903681926343749944243536121449203872647968442591019434343708
        101237729302843667688983991767317129101976573574838823745784213739728205254607,
    true⟩,
   60147478061187886752076803353021935337954997267734420592792452542285134641776⟩

/-- `blob3` with one hex character of its positive secret flipped (the last
character of the declared share is changed from `e` to `f`): structurally
valid, cryptographically invalid. -/
def mutBlob3 : String := "023cb7d6326e33332d04d026be1a04cdaf084703d8dc75322182d8fb314a03a8770313f2a73541e6d55a75a80a6da819885c6ed6e56ecff19f5e928c4ea202ca7c9000023cb7d6326e33332d04d026be1a04cdaf084703d8dc75322182d8fb314a03a877be6e3e5cdfc8877c9f9b1a0bbee781019c55098025b03fcede5e4947d16f6140b9e82400e4ba7c8fce269ded9b65df2fdf7d75b3f2a38584a861792019de52d19c5ef89431259b68b4cfd6374c826f4fb33f9f92f701e39644bcddf15cfadf368563c6d7708aee02f688255e3695d187cfb7a9555b09eb19236c3918a7be7f2f3cb7d6326e33332d04d026be1a04cdaf084703d8dc75322182d8fb314a03a877be6e3e5cdfc8877c9f9b1a0bbee781019c55098025b03fcede5e4947d16f6140b9e82400e4ba7c8fce269ded9b65df2fdf7d75b3f2a38584a861792019de52d19c5ef89431259b68b4cfd6374c826f4fb33f9f92f701e39644bcddf15cfadf368563c6d7708aee02f688255e3695d187cfb7a9555b09eb19236c3918a7be7f2e"

/-- Command line with the tampered third contribution. -/
def mutStrs : List String := [blob1, blob2, mutBlob3]

/-- Matches carrying the tampered contribution list. -/
def mutMatches : Matches := ⟨some wifKey, some mutStrs⟩

/-- The parsed tampered contribution list. -/
def mutVec : List Vss := (parseAll mutStrs).getD []

/-- A command line whose only contribution does not come from this signer
(the local key derived from `wifKey` is `blob1`'s sender, absent here). -/
def absentMatches : Matches := ⟨some wifKey, some [blob2]⟩

/-- The parsed single-contribution list of `absentMatches`. -/
def absentVec : List Vss := (parseAll [blob2]).getD []

/-! ## Primality of the base-field modulus (Pratt/Lucas certificate chain)

The round-trip property of compressed-point re-encoding rests on the
correctness of the `(fieldP + 1) / 4` square-root exponentiation, which in
turn needs `fieldP` to be prime.  The chain below verifies a Pratt
certificate with `lucas_primality`, factoring each `p - 1` completely. -/

theorem powModAux_lt (fuel : Nat) : ∀ b e m, 1 < m → powModAux fuel b e m < m := by
  induction fuel with
  | zero => intro b e m hm; simpa [powModAux] using hm
  | succ k ih =>
      intro b e m hm
      rw [powModAux]
      by_cases h0 : e = 0
      · simpa [h0] using Nat.mod_lt 1 (by omega)
      · simp only [h0, if_false]
        by_cases hpar : e % 2 = 1
        · simp only [hpar, if_true]
          exact Nat.mod_lt _ (by omega)
        · simp only [hpar, if_false]
          exact ih _ _ _ hm

theorem powMod_lt (b e m : Nat) (hm : 1 < m) : powMod b e m < m :=
  powModAux_lt 257 _ _ _ hm

theorem prime_dvd_prod_mem {q : Nat} (hq : Nat.Prime q) :
    ∀ ls : List Nat, (∀ x ∈ ls, Nat.Prime x) → q ∣ ls.prod → q ∈ ls := by
  intro ls
  induction ls with
  | nil =>
      intro _ hdvd
      rw [List.prod_nil] at hdvd
      exact absurd (Nat.dvd_one.mp hdvd) hq.ne_one
  | cons x xs ih =>
      intro hall hdvd
      rw [List.prod_cons] at hdvd
      rcases (Nat.Prime.dvd_mul hq).mp hdvd with h | h
      · have hx : q = x :=
          (Nat.prime_dvd_prime_iff_eq hq (hall x (List.mem_cons_self x xs))).mp h
        exact hx ▸ List.mem_cons_self x xs
      · exact List.mem_cons_of_mem x
          (ih (fun y hy => hall y (List.mem_cons_of_mem x hy)) h)

theorem zmod_pow_cast (p a e : Nat) (hp : 1 < p) (he : e < 2 ^ 257) :
    ((a : ZMod p)) ^ e = ((powMod a e p : Nat) : ZMod p) := by
  rw [powMod_eq a e p hp he, ZMod.natCast_mod, Nat.cast_pow]

theorem zmod_cast_ne_one (p c : Nat) (hp : 1 < p) (hc : c < p) (hne : c ≠ 1) :
    ((c : Nat) : ZMod p) ≠ 1 := by
  haveI : NeZero p := ⟨by omega⟩
  haveI : Fact (1 < p) := ⟨hp⟩
  intro h
  have h1 : ((c : Nat) : ZMod p).val = c := ZMod.val_cast_of_lt hc
  rw [h, ZMod.val_one] at h1
  exact hne h1.symm

theorem lucas_cert (p a : Nat) (qs : List Nat) (hp : 1 < p) (hplt : p - 1 < 2 ^ 257)
    (hqs : ∀ q ∈ qs, Nat.Prime q)
    (hprod : qs.prod = p - 1)
    (hpow : powMod a (p - 1) p = 1)
    (hdiv : ∀ q ∈ qs, powMod a ((p - 1) / q) p ≠ 1) : Nat.Prime p := by
  apply lucas_primality p ((a : Nat) : ZMod p)
  · rw [zmod_pow_cast p a (p - 1) hp hplt, hpow]
    exact Nat.cast_one
  · intro q hq hqd
    have hqmem : q ∈ qs := prime_dvd_prod_mem hq qs hqs (hprod ▸ hqd)
    rw [zmod_pow_cast p a ((p - 1) / q) hp (lt_of_le_of_lt (Nat.div_le_self _ _) hplt)]
    exact zmod_cast_ne_one p _ hp (powMod_lt _ _ _ hp) (hdiv q hqmem)

/-- Pratt-certificate step: 13331831 is prime (Lucas witness 13). -/
theorem prime_13331831 : Nat.Prime 13331831 := by
  refine lucas_cert 13331831 13 [2, 5, 971, 1373] (by norm_num) (by decide) ?_ (by decide) (by decide) ?_
  · intro q hq
    simp only [List.mem_cons, List.not_mem_nil, or_false] at hq
    rcases hq with rfl | rfl | rfl | rfl
    · norm_num
    · norm_num
    · norm_num
    · norm_num
  · intro q hq
    fin_cases hq <;> decide

/-- Pratt-certificate step: 173378833005251801 is prime (Lucas witness 6). -/
theorem prime_173378833005251801 : Nat.Prime 173378833005251801 := by
  refine lucas_cert 173378833005251801 6 [2, 2, 2, 5, 5, 2621, 24809, 13331831] (by norm_num) (by decide) ?_ (by decide) (by decide) ?_
  · intro q hq
    simp only [List.mem_cons, List.not_mem_nil, or_false] at hq
    rcases hq with rfl | rfl | rfl | rfl | rfl | rfl | rfl | rfl
    · norm_num
    · norm_num
    · norm_num
    · norm_num
    · norm_num
    · norm_num
    · norm_num
    · exact prime_13331831
  · intro q hq
    fin_cases hq <;> decide

/-- Pratt-certificate step: 22149492674086928081353 is prime (Lucas witness 5). -/
theorem prime_22149492674086928081353 : Nat.Prime 22149492674086928081353 := by
  refine lucas_cert 22149492674086928081353 5 [2, 2, 2, 3, 5323, 173378833005251801] (by norm_num) (by decide) ?_ (by decide) (by decide) ?_
  · intro q hq
    simp only [List.mem_cons, List.not_mem_nil, or_false] at hq
    rcases hq with rfl | rfl | rfl | rfl | rfl | rfl
    · norm_num
    · norm_num
    · norm_num
    · norm_num
    · norm_num
    · exact prime_173378833005251801
  · intro q hq
    fin_cases hq <;> decide

/-- Pratt-certificate step: 132896956044521568488119 is prime (Lucas witness 6). -/
theorem prime_132896956044521568488119 : Nat.Prime 132896956044521568488119 := by
  refine lucas_cert 132896956044521568488119 6 [2, 3, 22149492674086928081353] (by norm_num) (by decide) ?_ (by decide) (by decide) ?_
  · intro q hq
    simp only [List.mem_cons, List.not_mem_nil, or_false] at hq
    rcases hq with rfl | rfl | rfl
    · norm_num
    · norm_num
    · exact prime_22149492674086928081353
  · intro q hq
    fin_cases hq <;> decide

/-- Pratt-certificate step: 107590001 is prime (Lucas witness 3). -/
theorem prime_107590001 : Nat.Prime 107590001 := by
  refine lucas_cert 107590001 3 [2, 2, 2, 2, 5, 5, 5, 5, 7, 29, 53] (by norm_num) (by decide) ?_ (by decide) (by decide) ?_
  · intro q hq
    simp only [List.mem_cons, List.not_mem_nil, or_false] at hq
    rcases hq with rfl | rfl | rfl | rfl | rfl | rfl | rfl | rfl | rfl | rfl | rfl
    · norm_num
    · norm_num
    · norm_num
    · norm_num
    · norm_num
    · norm_num
    · norm_num
    · norm_num
    · norm_num
    · norm_num
    · norm_num
  · intro q hq
    fin_cases hq <;> decide

/-- Pratt-certificate step: 255515944373312847190720520512484175977 is prime (Lucas witness 3). -/
theorem prime_255515944373312847190720520512484175977 : Nat.Prime 255515944373312847190720520512484175977 := by
  refine lucas_cert 255515944373312847190720520512484175977 3 [2, 2, 2, 7, 7, 11, 1627, 2657, 4423, 41201, 96557, 7240687, 107590001] (by norm_num) (by decide) ?_ (by decide) (by decide) ?_
  · intro q hq
    simp only [List.mem_cons, List.not_mem_nil, or_false] at hq
    rcases hq with rfl | rfl | rfl | rfl | rfl | rfl | rfl | rfl | rfl | rfl | rfl | rfl | rfl
    · norm_num
    · norm_num
    · norm_num
    · norm_num
    · norm_num
    · norm_num
    · norm_num
    · norm_num
    · norm_num
    · norm_num
    · norm_num
    · norm_num
    · exact prime_107590001
  · intro q hq
    fin_cases hq <;> decide

/-- Pratt-certificate step: 205115282021455665897114700593932402728804164701536103180137503955397371 is prime (Lucas witness 10). -/
theorem prime_205115282021455665897114700593932402728804164701536103180137503955397371 : Nat.Prime 205115282021455665897114700593932402728804164701536103180137503955397371 := by
  refine lucas_cert 205115282021455665897114700593932402728804164701536103180137503955397371 10 [2, 3, 5, 29, 29, 31, 7723, 132896956044521568488119, 255515944373312847190720520512484175977] (by norm_num) (by decide) ?_ (by decide) (by decide) ?_
  · intro q hq
    simp only [List.mem_cons, List.not_mem_nil, or_false] at hq
    rcases hq with rfl | rfl | rfl | rfl | rfl | rfl | rfl | rfl | rfl
    · norm_num
    · norm_num
    · norm_num
    · norm_num
    · norm_num
    · norm_num
    · norm_num
    · exact prime_132896956044521568488119
    · exact prime_255515944373312847190720520512484175977
  · intro q hq
    fin_cases hq <;> decide

/-- Pratt-certificate step: fieldP is prime (Lucas witness 3). -/
theorem prime_fieldP : Nat.Prime fieldP := by
  refine lucas_cert fieldP 3 [2, 3, 7, 13441, 205115282021455665897114700593932402728804164701536103180137503955397371] (by decide) (by decide) ?_ (by decide) (by decide) ?_
  · intro q hq
    simp only [List.mem_cons, List.not_mem_nil, or_false] at hq
    rcases hq with rfl | rfl | rfl | rfl | rfl
    · norm_num
    · norm_num
    · norm_num
    · norm_num
    · exact prime_205115282021455665897114700593932402728804164701536103180137503955397371
  · intro q hq
    fin_cases hq <;> decide

/-! ## Square-root correctness of compressed-point decompression -/

/-- The base field modulus is prime, so `ZMod fieldP` is a field. -/
instance instFactPrimeFieldP : Fact (Nat.Prime fieldP) := ⟨prime_fieldP⟩

theorem zmod_natCast_inj {a b : Nat} (ha : a < fieldP) (hb : b < fieldP)
    (h : (a : ZMod fieldP) = (b : Nat)) : a = b := by
  have hv := congrArg ZMod.val h
  rwa [ZMod.val_cast_of_lt ha, ZMod.val_cast_of_lt hb] at hv

/-- Correctness of the parity-selected modular square root: for an on-curve
pair `(x, y)` the decompression of `x` with `y`'s parity prefix recovers
exactly `y`. -/
theorem decompressY_eq {x y : Nat} (_hx : x < fieldP) (hy : y < fieldP)
    (hcurve : onCurve x y = true) : decompressY x (2 + y % 2) = y := by
  have hP1 : (1 : Nat) < fieldP := by decide
  have hzy : y * y % fieldP = (x * x % fieldP * x % fieldP + 7) % fieldP := by
    simpa [onCurve] using hcurve
  have hzlt : (x * x % fieldP * x % fieldP + 7) % fieldP < fieldP := Nat.mod_lt _ (by decide)
  have hy0lt : powMod ((x * x % fieldP * x % fieldP + 7) % fieldP) ((fieldP + 1) / 4) fieldP
      < fieldP := powMod_lt _ _ _ hP1
  have hcastz : (((x * x % fieldP * x % fieldP + 7) % fieldP : Nat) : ZMod fieldP)
      = ((y : Nat) : ZMod fieldP) ^ 2 := by
    rw [← hzy, ZMod.natCast_mod, Nat.cast_mul, pow_two]
  have hy0cast : ((powMod ((x * x % fieldP * x % fieldP + 7) % fieldP) ((fieldP + 1) / 4) fieldP
        : Nat) : ZMod fieldP)
      = (((x * x % fieldP * x % fieldP + 7) % fieldP : Nat) : ZMod fieldP) ^ ((fieldP + 1) / 4) :=
    (zmod_pow_cast fieldP _ _ hP1 (by decide)).symm
  have claimA : ((powMod ((x * x % fieldP * x % fieldP + 7) % fieldP) ((fieldP + 1) / 4) fieldP
        : Nat) : ZMod fieldP) ^ 2
      = (((x * x % fieldP * x % fieldP + 7) % fieldP : Nat) : ZMod fieldP) := by
    rw [hy0cast, ← pow_mul, hcastz, ← pow_mul]
    by_cases hy00 : ((y : Nat) : ZMod fieldP) = 0
    · rw [hy00]
      rw [zero_pow (by decide), zero_pow (by decide)]
    · have hfermat : ((y : Nat) : ZMod fieldP) ^ (fieldP - 1) = 1 :=
        ZMod.pow_card_sub_one_eq_one hy00
      rw [show 2 * ((fieldP + 1) / 4 * 2) = (fieldP - 1) + 2 by decide,
        pow_add, hfermat, one_mul]
  have hA : powMod ((x * x % fieldP * x % fieldP + 7) % fieldP) ((fieldP + 1) / 4) fieldP
        * powMod ((x * x % fieldP * x % fieldP + 7) % fieldP) ((fieldP + 1) / 4) fieldP % fieldP
      = (x * x % fieldP * x % fieldP + 7) % fieldP := by
    refine zmod_natCast_inj (Nat.mod_lt _ (by decide)) hzlt ?_
    rw [ZMod.natCast_mod, Nat.cast_mul, ← pow_two]
    exact claimA
  have hdisj : powMod ((x * x % fieldP * x % fieldP + 7) % fieldP) ((fieldP + 1) / 4) fieldP = y
      ∨ powMod ((x * x % fieldP * x % fieldP + 7) % fieldP) ((fieldP + 1) / 4) fieldP
        = fieldP - y := by
    have hsq : ((powMod ((x * x % fieldP * x % fieldP + 7) % fieldP) ((fieldP + 1) / 4) fieldP
          : Nat) : ZMod fieldP)
          * ((powMod ((x * x % fieldP * x % fieldP + 7) % fieldP) ((fieldP + 1) / 4) fieldP
          : Nat) : ZMod fieldP)
        = ((y : Nat) : ZMod fieldP) * ((y : Nat) : ZMod fieldP) := by
      rw [← pow_two, claimA, hcastz, pow_two]
    rcases mul_self_eq_mul_self_iff.mp hsq with h | h
    · exact Or.inl (zmod_natCast_inj hy0lt hy h)
    · by_cases hyz : y = 0
      · subst hyz
        refine Or.inl (zmod_natCast_inj hy0lt hy ?_)
        simpa using h
      · have hPpos : 0 < fieldP := by decide
        have hneg : ((fieldP - y : Nat) : ZMod fieldP) = -((y : Nat) : ZMod fieldP) := by
          rw [Nat.cast_sub (le_of_lt hy), ZMod.natCast_self]
          ring
        exact Or.inr (zmod_natCast_inj hy0lt (by omega) (h.trans hneg.symm))
  have hodd : fieldP % 2 = 1 := by decide
  have hP0 : 0 < fieldP := by decide
  rw [decompressY]
  rcases hdisj with h | h
  · rw [h, if_pos (by omega)]
  · by_cases hyz : y = 0
    · subst hyz
      exfalso
      omega
    · have hypos : 0 < y := by omega
      rw [h, if_neg (by omega)]
      have hsub : fieldP - (fieldP - y) = y := by omega
      rw [hsub, Nat.mod_eq_of_lt hy]

/-! ## The two-step re-encoding is a round trip -/

theorem take_of_len32 (l1 l2 : List Nat) (h : l1.length = 32) : (l1 ++ l2).take 32 = l1 := by
  rw [← h, List.take_left]

theorem drop_of_len32 (l1 l2 : List Nat) (h : l1.length = 32) : (l1 ++ l2).drop 32 = l2 := by
  rw [← h, List.drop_left]

theorem pkFromSlice_uncomp {x y : Nat} (hx : x < 256 ^ 32) (hy : y < 256 ^ 32) :
    pkFromSlice (pkToKeySlice (.mk x y))
      = if x < fieldP ∧ y < fieldP ∧ onCurve x y = true
        then some ⟨.mk x y, false⟩ else none := by
  have hbx := natToBeBytes_length 32 x
  have hby := natToBeBytes_length 32 y
  have hlen : (4 :: (natToBeBytes 32 x ++ natToBeBytes 32 y)).length = 65 := by
    simp [hbx, hby]
  have htake : ((4 :: (natToBeBytes 32 x ++ natToBeBytes 32 y)).drop 1).take 32
      = natToBeBytes 32 x := by
    rw [show (1 : Nat) = 0 + 1 from rfl, List.drop_succ_cons, List.drop_zero]
    exact take_of_len32 _ _ hbx
  have hdrop : (4 :: (natToBeBytes 32 x ++ natToBeBytes 32 y)).drop 33
      = natToBeBytes 32 y := by
    rw [show (33 : Nat) = 32 + 1 from rfl, List.drop_succ_cons]
    exact drop_of_len32 _ _ hbx
  show pkFromSlice (4 :: (natToBeBytes 32 x ++ natToBeBytes 32 y)) = _
  rw [pkFromSlice, if_neg (by simp [hlen]), if_pos ⟨hlen, rfl⟩]
  rw [htake, hdrop, beBytesToNat_natToBeBytes_of_lt 32 x hx,
    beBytesToNat_natToBeBytes_of_lt 32 y hy]

theorem pkFromSlice_comp {x y : Nat} (hx : x < fieldP) (hy : y < fieldP)
    (hcurve : onCurve x y = true) :
    pkFromSlice (serializeComp (.mk x y)) = some ⟨.mk x y, true⟩ := by
  have hxb : x < 256 ^ 32 := lt_of_lt_of_le hx (by norm_num [fieldP])
  have hbx := natToBeBytes_length 32 x
  have hlen : ((2 + y % 2) :: natToBeBytes 32 x).length = 33 := by simp [hbx]
  show pkFromSlice ((2 + y % 2) :: natToBeBytes 32 x) = _
  rw [pkFromSlice, if_pos ⟨hlen, by simp [List.getD]; omega⟩]
  have hget : ((2 + y % 2) :: natToBeBytes 32 x).getD 0 0 = 2 + y % 2 := rfl
  have hdrop1 : ((2 + y % 2) :: natToBeBytes 32 x).drop 1 = natToBeBytes 32 x := rfl
  rw [hget, hdrop1, beBytesToNat_natToBeBytes_of_lt 32 x hxb]
  show (if x < fieldP ∧ onCurve x (decompressY x (2 + y % 2)) = true
      then some (⟨Point.mk x (decompressY x (2 + y % 2)), true⟩ : PublicKey) else none)
    = some ⟨Point.mk x y, true⟩
  rw [decompressY_eq hx hy hcurve, if_pos ⟨hx, hcurve⟩]

/-- The re-encoding performed at the end of `execute` is a round trip: when
it succeeds on a finite point with reduced coordinates, the resulting
public key holds exactly the same point (in compressed form). -/
theorem reencode_eq_of_parse {y0 : Point} {u : PublicKey}
    (h1 : pkFromSlice (pkToKeySlice y0) = some u) :
    reencode y0 = (match pkFromSlice (serializeComp u.point) with
      | none => .error .InvalidKey
      | some publicKey => .ok publicKey) := by
  rw [reencode, h1]

theorem reencode_roundtrip {x y : Nat} {pk : PublicKey} (hx : x < fieldP) (hy : y < fieldP)
    (h : reencode (.mk x y) = .ok pk) : pk = ⟨.mk x y, true⟩ := by
  have hxb : x < 256 ^ 32 := lt_of_lt_of_le hx (by norm_num [fieldP])
  have hyb : y < 256 ^ 32 := lt_of_lt_of_le hy (by norm_num [fieldP])
  have hunc := pkFromSlice_uncomp hxb hyb
  by_cases hcond : x < fieldP ∧ y < fieldP ∧ onCurve x y = true
  · rw [if_pos hcond] at hunc
    rw [reencode_eq_of_parse hunc] at h
    rw [show (⟨Point.mk x y, false⟩ : PublicKey).point = Point.mk x y from rfl] at h
    rw [pkFromSlice_comp hx hy hcond.2.2] at h
    have h2 : Except.ok (⟨Point.mk x y, true⟩ : PublicKey) = Except.ok pk := h
    exact (Except.ok.inj h2).symm
  · rw [if_neg hcond] at hunc
    rw [reencode, hunc] at h
    have h2 : (Except.error Error.InvalidKey : Except Error PublicKey) = Except.ok pk := h
    cases h2

/-! ## Bounds of combined points, display-length lemmas -/

theorem toAffine_bounds (j : Jac) :
    toAffine j = .inf ∨ ∃ a b, toAffine j = .mk a b ∧ a < fieldP ∧ b < fieldP := by
  rw [toAffine]
  by_cases h : j.z = 0
  · left
    rw [if_pos h]
  · right
    rw [if_neg h]
    exact ⟨_, _, rfl, Nat.mod_lt _ (by decide), Nat.mod_lt _ (by decide)⟩

theorem foldl_geAdd_bounds (l : List Point) :
    ∀ acc : Point,
      (acc = .inf ∨ ∃ a b, acc = .mk a b ∧ a < fieldP ∧ b < fieldP) →
      l.foldl geAdd acc = .inf
        ∨ ∃ a b, l.foldl geAdd acc = .mk a b ∧ a < fieldP ∧ b < fieldP := by
  induction l with
  | nil => intro acc hacc; exact hacc
  | cons c cs ih =>
      intro acc _
      rw [List.foldl_cons]
      exact ih (geAdd acc c) (toAffine_bounds _)

theorem verify_ok_y {m : List (PublicKey × SharedSecret)} {index : Nat} {sk : SharedKeys}
    (h : verifyVssAndConstructKey m index = .ok sk) :
    sk.y = .inf ∨ ∃ a b, sk.y = .mk a b ∧ a < fieldP ∧ b < fieldP := by
  rw [verifyVssAndConstructKey] at h
  cases hf : m.find? (fun e => ! validateShare e.2 index) with
  | some e => rw [hf] at h; cases h
  | none =>
      rw [hf] at h
      cases h
      exact foldl_geAdd_bounds _ _ (Or.inl rfl)

theorem reencode_inf : reencode Point.inf = .error .InvalidKey := by rfl

theorem flatMap_byteHex_length (bs : List Nat) :
    (bs.flatMap byteHex).length = 2 * bs.length := by
  induction bs with
  | nil => rfl
  | cons b rest ih =>
      rw [List.flatMap_cons, List.length_append, ih]
      simp [byteHex]
      omega

theorem bytesToHex_length (bs : List Nat) : (bytesToHex bs).length = 2 * bs.length := by
  show (bs.flatMap byteHex).length = 2 * bs.length
  exact flatMap_byteHex_length bs

theorem bytesToHex_subset (bs : List Nat) : ∀ c ∈ (bytesToHex bs).toList, c ∈ hexChars := by
  intro c hc
  have hc2 : c ∈ bs.flatMap byteHex := hc
  rcases List.mem_flatMap.mp hc2 with ⟨b, _, hcb⟩
  rcases List.mem_cons.mp hcb with h | h
  · exact h ▸ hexChar_mem _
  rcases List.mem_cons.mp h with h2 | h2
  · exact h2 ▸ hexChar_mem _
  · cases h2

theorem pkDisplay_length_of_compressed {pk : PublicKey} (h : pk.compressed = true) :
    (pkDisplay pk).length = 66 := by
  rw [pkDisplay, bytesToHex_length, pkSerialize, if_pos h, serializeComp_length]

theorem space_not_hexChar : (' ' ∈ hexChars) = False := by decide

/-! ## Claim theorems -/

/-- Claim C1: whenever some contribution's declared share fails the Feldman
commitment check at the local index, the verify-and-combine step returns
`InvalidShare` naming a sender whose share indeed fails the check, `execute`
returns that very error, and no `AggregateResult` is produced. -/
theorem claim_C1 (m : Matches) (sk : PrivateKey) (strs : List String) (vssVec : List Vss)
    (index : Nat)
    (hsk : m.privateKey.bind fromWif = some sk)
    (hvs : m.vss = some strs)
    (hvv : parseAll strs = some vssVec)
    (hidx : indexOfOpt sk (sortPublickey (vssVec.map (fun v => v.sender_public_key)))
      = some index)
    (hbad : ∃ e ∈ vssToSharedSecretMap vssVec ⟨1, vssVec.length⟩,
      validateShare e.2 index = false) :
    ∃ e ∈ vssToSharedSecretMap vssVec ⟨1, vssVec.length⟩,
      validateShare e.2 index = false ∧
      verifyVssAndConstructKey (vssToSharedSecretMap vssVec ⟨1, vssVec.length⟩) index
        = .error (.InvalidShare e.1) ∧
      execute m = .err (.InvalidShare e.1) ∧
      ∀ r, execute m ≠ .ok r := by
  rcases verify_invalidShare _ _ hbad with ⟨e, hmem, hfalse, hverr⟩
  have hexec : execute m = .err (.InvalidShare e.1) := by
    rw [execute_eq_executeVss hsk hvs hvv]
    exact executeVss_err_of_verify hidx hverr
  exact ⟨e, hmem, hfalse, hverr, hexec, fun r hr => by rw [hexec] at hr; cases hr⟩

/-- Witness for C1: the worked example with one byte of the third
contribution's share flipped. -/
theorem claim_C1_witness :
    ∃ e ∈ vssToSharedSecretMap mutVec ⟨1, mutVec.length⟩,
      validateShare e.2 3 = false ∧
      verifyVssAndConstructKey (vssToSharedSecretMap mutVec ⟨1, mutVec.length⟩) 3
        = .error (.InvalidShare e.1) ∧
      execute mutMatches = .err (.InvalidShare e.1) ∧
      ∀ r, execute mutMatches ≠ .ok r :=
  claim_C1 mutMatches exampleSk mutStrs mutVec 3 (by decide) rfl (by decide) (by decide)
    (by decide)

/-- Shared evaluation: the worked example's full run. -/
theorem exampleExec : execute exampleMatches = .ok exampleResponse := by decide

/-- Claim C2: on the repository's test vector the command succeeds and its
rendered result is exactly the expected line. -/
theorem claim_C2 :
    execute exampleMatches = .ok exampleResponse
      ∧ responseString exampleResponse = expectedOutput :=
  ⟨exampleExec, by decide⟩

/-- Claim C3: every successful aggregation renders as the compressed public
key's 66 hex characters, one space, and the secret's hex left-padded to
exactly 64 characters; neither field contains a space, and the value 255
pads to 62 zeros followed by ff. -/
theorem claim_C3 :
    (∀ (m : Matches) (r : AggregateResponse), execute m = .ok r →
        r.aggregated_public_key.compressed = true ∧ r.node_shared_secret < 2 ^ 256)
    ∧ (∀ r : AggregateResponse,
        r.aggregated_public_key.compressed = true → r.node_shared_secret < 2 ^ 256 →
        responseString r
            = pkDisplay r.aggregated_public_key ++ " "
              ++ padLeftZero 64 (natToHex r.node_shared_secret)
          ∧ (padLeftZero 64 (natToHex r.node_shared_secret)).length = 64
          ∧ (pkDisplay r.aggregated_public_key).length = 66
          ∧ (∀ c ∈ (pkDisplay r.aggregated_public_key).toList, c ≠ ' ')
          ∧ (∀ c ∈ (padLeftZero 64 (natToHex r.node_shared_secret)).toList, c ≠ ' '))
    ∧ padLeftZero 64 (natToHex 255)
        = "00000000000000000000000000000000000000000000000000000000000000ff" := by
  refine ⟨?_, ?_, by decide⟩
  · intro m r h
    have := execute_ok h
    exact ⟨this.1, lt_trans this.2 (by decide)⟩
  · intro r hc hlt
    refine ⟨rfl, padLeftZero_length _ _ (natToHex_length_le _ hlt),
      pkDisplay_length_of_compressed hc, ?_, ?_⟩
    · intro c hcm hsp
      have := bytesToHex_subset _ c hcm
      rw [hsp] at this
      exact absurd this (by decide)
    · intro c hcm hsp
      have := padLeftZero_subset 64 _ (natToHex_subset _) c hcm
      rw [hsp] at this
      exact absurd this (by decide)

/-- Witness for C3: the worked example's response satisfies the inversion
part of the claim. -/
theorem claim_C3_witness :
    exampleResponse.aggregated_public_key.compressed = true
      ∧ exampleResponse.node_shared_secret < 2 ^ 256 :=
  claim_C3.1 exampleMatches exampleResponse exampleExec

/-- Claim C4: a missing or undecodable `--private-key` value makes
`execute` return `InvalidArgs("private-key")`: no result and no panic. -/
theorem claim_C4 (m : Matches) (h : m.privateKey.bind fromWif = none) :
    execute m = .err (.InvalidArgs "private-key")
      ∧ (∀ r, execute m ≠ .ok r) ∧ execute m ≠ .abort := by
  have hexec : execute m = .err (.InvalidArgs "private-key") := by
    rw [execute, h]
  refine ⟨hexec, ?_, ?_⟩
  · intro r hr
    rw [hexec] at hr
    cases hr
  · intro hr
    rw [hexec] at hr
    cases hr

/-- The repository's invalid-private-key test input. -/
def badKeyMatches : Matches := ⟨some "x", some [blob1, blob2, blob3]⟩

/-- Witness for C4 at the repository's own invalid-key test input. -/
theorem claim_C4_witness :
    execute badKeyMatches = .err (.InvalidArgs "private-key")
      ∧ (∀ r, execute badKeyMatches ≠ .ok r) ∧ execute badKeyMatches ≠ .abort :=
  claim_C4 badKeyMatches (by decide)

/-- A structurally valid `Vss` value carried by the tampered blob. -/
def mutV3 : Vss :=
  (vssFromStr mutBlob3).getD ⟨⟨.inf, true⟩, ⟨.inf, true⟩, [], 0, [], 0⟩

/-- Claim C5: a structurally invalid `--vss` value makes `execute` return
`InvalidSS` (no crash, no result); and parsing alone performs no Feldman
verification — the tampered blob parses successfully although its share
fails the check. -/
theorem claim_C5 :
    (∀ (m : Matches) (sk : PrivateKey) (strs : List String),
        m.privateKey.bind fromWif = some sk → m.vss = some strs →
        (∃ s ∈ strs, vssFromStr s = none) →
        execute m = .err .InvalidSS ∧ ∀ r, execute m ≠ .ok r)
    ∧ vssFromStr mutBlob3 = some mutV3
    ∧ validateShare ⟨⟨⟨1, 3⟩, mutV3.positive_commitments⟩, mutV3.positive_secret⟩ 3
        = false := by
  refine ⟨?_, by decide, by decide⟩
  intro m sk strs hsk hvs hex
  rcases hex with ⟨s, hsmem, hsfail⟩
  have hexec : execute m = .err .InvalidSS := by
    simp only [execute, hsk, hvs, parseAll_none_of_mem hsmem hsfail]
  exact ⟨hexec, fun r hr => by rw [hexec] at hr; cases hr⟩

/-- Witness for C5 at the repository's own invalid-vss test input. -/
theorem claim_C5_witness :
    execute ⟨some wifKey, some ["x", blob2, blob3]⟩ = .err .InvalidSS
      ∧ ∀ r, execute ⟨some wifKey, some ["x", blob2, blob3]⟩ ≠ .ok r :=
  claim_C5.1 ⟨some wifKey, some ["x", blob2, blob3]⟩ exampleSk ["x", blob2, blob3]
    (by decide) rfl ⟨"x", List.mem_cons_self _ _, by decide⟩

/-- Shared evaluation: the run whose only contribution is not the local
signer's aborts at index resolution. -/
theorem absentExec : execute absentMatches = .abort := by decide

/-- Counterexample to C6 as stated: with the local key absent from the
contributions, `execute` aborts (the index lookup panics) and returns no
error value at all, so no `KeyNotFound` error is surfaced to the caller. -/
theorem claim_C6_counterexample :
    execute absentMatches = .abort ∧ ∀ e, execute absentMatches ≠ .err e :=
  ⟨absentExec, fun e he => by rw [absentExec] at he; cases he⟩

/-- Claim C6 as amended: when the local public key is absent from the
sorted sender-key list, the run aborts (a panic escaping `execute`) instead
of returning an error result. -/
theorem claim_C6_amended (m : Matches) (sk : PrivateKey) (strs : List String)
    (vssVec : List Vss)
    (hsk : m.privateKey.bind fromWif = some sk)
    (hvs : m.vss = some strs)
    (hvv : parseAll strs = some vssVec)
    (habs : derivePubkey sk ∉ sortPublickey (vssVec.map (fun v => v.sender_public_key))) :
    execute m = .abort := by
  rw [execute_eq_executeVss hsk hvs hvv]
  exact executeVss_abort_of_absent (indexOfOpt_eq_none habs)

/-- Witness for the amended C6. -/
theorem claim_C6_amended_witness : execute absentMatches = .abort :=
  claim_C6_amended absentMatches exampleSk [blob2] absentVec (by decide) rfl (by decide)
    (by decide)

/-- Claim C7: the aggregation tail always runs with the threshold pinned to
the constant 1 and `share_count` equal to the number of contributions, and
its outcome is independent of the scheme parameters altogether — no
threshold consistency check exists. -/
theorem claim_C7 :
    (∀ (sk : PrivateKey) (vssVec : List Vss),
        executeVss sk vssVec = executeCore sk vssVec ⟨1, vssVec.length⟩)
    ∧ (∀ (sk : PrivateKey) (vssVec : List Vss) (p q : ShamirSecretSharing),
        executeCore sk vssVec p = executeCore sk vssVec q) :=
  ⟨executeVss_eq_core, executeCore_params_indep⟩

/-- Claim C8: every successful run returns the aggregated key flagged
compressed with a 33-byte serialisation, and the re-encoding step can only
produce a compressed key or fail with the `InvalidKey` (encoding) error. -/
theorem claim_C8 :
    (∀ (m : Matches) (r : AggregateResponse), execute m = .ok r →
        r.aggregated_public_key.compressed = true
          ∧ (pkSerialize r.aggregated_public_key).length = 33)
    ∧ (∀ y : Point, reencode y = .error .InvalidKey
        ∨ ∃ pk, reencode y = .ok pk ∧ pk.compressed = true) := by
  refine ⟨?_, reencode_cases⟩
  intro m r h
  have hc := (execute_ok h).1
  refine ⟨hc, ?_⟩
  rw [pkSerialize, if_pos hc, serializeComp_length]

/-- Witness for C8 at the worked example. -/
theorem claim_C8_witness :
    exampleResponse.aggregated_public_key.compressed = true
      ∧ (pkSerialize exampleResponse.aggregated_public_key).length = 33 :=
  claim_C8.1 exampleMatches exampleResponse exampleExec

/-- Claim C9: the embedded `execute` is a pure function (two runs on the
same input coincide definitionally), and the resolved participant index is
invariant under any permutation of the supplied key list, because the keys
are sorted into canonical byte order first (requires the keys to be
distinguishable by their serialisation, as parsed keys are). -/
theorem claim_C9 :
    (∀ m : Matches, execute m = execute m)
    ∧ (∀ (sk : PrivateKey) (l l2 : List PublicKey), l.Perm l2 →
        (∀ a ∈ l, ∀ b ∈ l, pkSerialize a = pkSerialize b → a = b) →
        indexOfOpt sk (sortPublickey l) = indexOfOpt sk (sortPublickey l2)) := by
  refine ⟨fun m => rfl, ?_⟩
  intro sk l l2 hp hinj
  rw [sortPublickey_eq_of_perm l l2 hp hinj]

/-- Witness for C9: a two-element key list and its swap resolve the same
index. -/
theorem claim_C9_witness :
    indexOfOpt ⟨true, 5⟩ (sortPublickey [⟨.mk 1 2, true⟩, ⟨.mk 3 4, true⟩])
      = indexOfOpt ⟨true, 5⟩ (sortPublickey [⟨.mk 3 4, true⟩, ⟨.mk 1 2, true⟩]) :=
  claim_C9.2 ⟨true, 5⟩ [⟨.mk 1 2, true⟩, ⟨.mk 3 4, true⟩] [⟨.mk 3 4, true⟩, ⟨.mk 1 2, true⟩]
    (List.Perm.swap _ _ _) (by decide)

/-- Claim C10: for every successfully combined key, the two-step
re-encoding of `shared_keys.y` (uncompressed slice, parse, compressed
re-serialisation, re-parse) is a round trip — the final public key holds
exactly the point `shared_keys.y`, in compressed form. -/
theorem claim_C10 (m : List (PublicKey × SharedSecret)) (index : Nat)
    (sk : SharedKeys) (pk : PublicKey)
    (hv : verifyVssAndConstructKey m index = .ok sk)
    (hre : reencode sk.y = .ok pk) :
    pk.point = sk.y ∧ pk.compressed = true := by
  rcases verify_ok_y hv with hinf | ⟨a, b, hab, ha, hb⟩
  · rw [hinf, reencode_inf] at hre
    cases hre
  · rw [hab] at hre
    have hpk := reencode_roundtrip ha hb hre
    rw [hpk, hab]
    exact ⟨rfl, rfl⟩

/-- Equality of `Except` outcomes is decidable when both components' are. -/
instance instDecEqExcept {α β : Type} [DecidableEq α] [DecidableEq β] :
    DecidableEq (Except α β) := fun a b =>
  match a, b with
  | .ok x, .ok y =>
      if h : x = y then isTrue (by rw [h])
      else isFalse (by intro hc; cases hc; exact h rfl)
  | .error x, .error y =>
      if h : x = y then isTrue (by rw [h])
      else isFalse (by intro hc; cases hc; exact h rfl)
  | .ok _, .error _ => isFalse (by intro hc; cases hc)
  | .error _, .ok _ => isFalse (by intro hc; cases hc)

/-- The worked example's contribution list. -/
def exampleVec : List Vss := (parseAll [blob1, blob2, blob3]).getD []

/-- The combined keys of the worked example (aggregate point and private
share). -/
def exampleShared : SharedKeys :=
  ⟨.mk 78637319993943231903681926343749944243536121449203872647968442591019434343708
       101237729302843667688983991767317129101976573574838823745784213739728205254607,
   60147478061187886752076803353021935337954997267734420592792452542285134641776⟩

/-- Shared evaluation: the worked example's verify-and-combine result. -/
theorem exampleVerify :
    verifyVssAndConstructKey (vssToSharedSecretMap exampleVec ⟨1, 3⟩) 3
      = .ok exampleShared := by decide

/-- Shared evaluation: re-encoding the worked example's combined point. -/
theorem exampleReencode :
    reencode exampleShared.y = .ok ⟨exampleShared.y, true⟩ := by decide

/-- Witness for C10 at the worked example. -/
theorem claim_C10_witness :
    (⟨exampleShared.y, true⟩ : PublicKey).point = exampleShared.y
      ∧ (⟨exampleShared.y, true⟩ : PublicKey).compressed = true :=
  claim_C10 (vssToSharedSecretMap exampleVec ⟨1, 3⟩) 3 exampleShared ⟨exampleShared.y, true⟩
    exampleVerify exampleReencode

end TS
